import Mathlib

/-!
Verification of the Bookmark-Backup extension core against its design
specification.

The development shallowly embeds the relevant source modules:

* the recurrence calculator (`calculateNextBackupTime` in `src/lib/scheduler`),
  over an explicit civil-calendar model of the JavaScript `Date` object
  (local time, no DST, proleptic Gregorian calendar — all properties under
  verification are calendar-level and DST-independent);
* the history ledger (`addBackupToHistory` in `src/lib/storage`),
  as a pure function on the persisted list;
* the bookmark serializer (`countBookmarks`, `exportAsJSON`, `exportAsHTML`
  in `src/lib/bookmarks`), over character lists;
* the backup orchestrator (`performBackup` in `src/background/index.ts`),
  as a pure function of an environment record that fixes the outcome of
  every external asynchronous call.

Machine numbers are modelled as `Nat`/`Int` (all quantities involved are
integers well below 2^53, where JavaScript arithmetic is exact).
-/

set_option maxRecDepth 8000

/-! ## Civil calendar model of the JavaScript `Date` object -/

/-- Gregorian leap-year rule, as JavaScript's `Date` implements it
(`y % 4 == 0 && y % 100 != 0 || y % 400 == 0`). -/
def isLeap (y : Int) : Bool := (y % 4 == 0 && !(y % 100 == 0)) || y % 400 == 0

/-- Days in month `m` (0-based, January = 0) of year `y`. -/
def daysInMonth (y : Int) (m : Nat) : Nat :=
  if m = 1 then (if isLeap y then 29 else 28)
  else if m = 3 ∨ m = 5 ∨ m = 8 ∨ m = 10 then 30
  else 31

/-- Days from year 0 to the start of month `m` of the same year. -/
def monthOffset (y : Int) : Nat → Nat
  | 0 => 0
  | m + 1 => monthOffset y m + daysInMonth y m

/-- Days from 0000-01-01 to the start of year `y` (proleptic Gregorian;
the `ediv`-based terms count the leap years before `y`). -/
def dby (y : Int) : Int := 365 * y + (y + 3) / 4 - (y + 99) / 100 + (y + 399) / 400

/-- Linear day number of the civil triple `(y, m, d)` (day `d` is 1-based;
`d` is an `Int` so the triple may be denormalized, exactly as the
intermediate states of JavaScript's `setDate` are). -/
def civilDays (y : Int) (m : Nat) (d : Int) : Int := dby y + monthOffset y m + d - 1

/-- A broken-down local date-time, mirroring the components a JavaScript
`Date` exposes (`getFullYear`, `getMonth` 0-based, `getDate` 1-based,
`getHours`, `getMinutes`, `getSeconds`, `getMilliseconds`). -/
structure DateTime where
  year : Int
  month : Nat
  day : Nat
  hour : Nat
  minute : Nat
  second : Nat
  ms : Nat
deriving DecidableEq, Repr

/-- The components are in their normal ranges (what a real `Date` maintains). -/
def ValidDT (t : DateTime) : Prop :=
  t.month < 12 ∧ 1 ≤ t.day ∧ t.day ≤ daysInMonth t.year t.month ∧
  t.hour < 24 ∧ t.minute < 60 ∧ t.second < 60 ∧ t.ms < 1000

instance (t : DateTime) : Decidable (ValidDT t) := by unfold ValidDT; infer_instance

/-- Linear day number of a `DateTime`'s date part. -/
def daysOf (t : DateTime) : Int := civilDays t.year t.month t.day

/-- The model's `getTime()`: milliseconds on a linear time scale (the epoch
offset is a fixed constant throughout, so comparisons and differences agree
with JavaScript in a fixed-offset timezone). -/
def toTs (t : DateTime) : Int :=
  daysOf t * 86400000 + t.hour * 3600000 + t.minute * 60000 + t.second * 1000 + t.ms

/-- The model's `getDay()`: 0 = Sunday … 6 = Saturday. The constant 6 makes
day number 719528 (1970-01-01) a Thursday (= 4), matching JavaScript. -/
def weekday (t : DateTime) : Int := (daysOf t + 6) % 7

/-- Weekday of a raw timestamp (used to state claims about returned values). -/
def tsWeekday (ts : Int) : Int := (ts / 86400000 + 6) % 7

/-- Fuel-driven day normalization: JavaScript's `setDate` semantics.
A day value `d ≤ 0` borrows from the previous month (`setDate(0)` is the
last day of the previous month); `d` beyond the month's length carries into
the following month. Structural on `fuel` so that it evaluates by `decide`. -/
def rollDayF : Nat → Int → Nat → Int → Int × Nat × Nat
  | 0, y, m, d => (y, m, d.toNat)
  | fuel + 1, y, 0, d =>
    if d ≤ 0 then rollDayF fuel (y - 1) 11 (d + daysInMonth (y - 1) 11)
    else if (daysInMonth y 0 : Int) < d then rollDayF fuel y 1 (d - daysInMonth y 0)
    else (y, 0, d.toNat)
  | fuel + 1, y, m0 + 1, d =>
    if d ≤ 0 then rollDayF fuel y m0 (d + daysInMonth y m0)
    else if (daysInMonth y (m0 + 1) : Int) < d then
      if m0 + 1 = 11 then rollDayF fuel (y + 1) 0 (d - daysInMonth y (m0 + 1))
      else rollDayF fuel y (m0 + 2) (d - daysInMonth y (m0 + 1))
    else (y, m0 + 1, d.toNat)

/-- Day normalization with always-sufficient fuel (each step moves the day
value at least 28 closer to range, so `d.natAbs + 40` steps always finish). -/
def rollDay (y : Int) (m : Nat) (d : Int) : Int × Nat × Nat :=
  rollDayF (d.natAbs + 40) y m d

/-- `date.setHours(h, mi, 0, 0)` — the scheduler always passes 0 seconds and
0 milliseconds. (In-range `h`, `mi` are assumed where theorems need them;
the source always derives them from a well-formed `"HH:MM"` string.) -/
def setHours (t : DateTime) (h mi : Nat) : DateTime :=
  { t with hour := h, minute := mi, second := 0, ms := 0 }

/-- `date.setDate(d)` with JavaScript's carrying/borrowing semantics. -/
def setDate (t : DateTime) (d : Int) : DateTime :=
  let r := rollDay t.year t.month d
  { t with year := r.1, month := r.2.1, day := r.2.2 }

/-- `date.setMonth(mo)`: the month is floor-normalized into the year, then
the (unchanged) day value is re-normalized against the new month's length. -/
def setMonth (t : DateTime) (mo : Int) : DateTime :=
  let y := t.year + mo / 12
  let m := (mo % 12).toNat
  let r := rollDay y m t.day
  { t with year := r.1, month := r.2.1, day := r.2.2 }

/-! ## Settings record (`src/types/index.ts`) -/

inductive Frequency where
  | daily | weekly | monthly | custom
deriving DecidableEq, Repr

inductive BackupFormat where
  | json | html
deriving DecidableEq, Repr

inductive StorageMode where
  | download | extension
deriving DecidableEq, Repr

/-- The `BackupSettings` record. Optional fields are `Option`s; the source
reads them through `??`-defaults. -/
structure BackupSettings where
  enabled : Bool
  frequency : Frequency
  customIntervalDays : Option Int
  backupTime : String
  backupDay : Option Int
  format : BackupFormat
  autoDownload : Bool
  storageMode : StorageMode
  downloadFolder : String
  useCustomDirectory : Bool
  customDirectoryName : Option String
  keepBackupCount : Nat
  lastBackup : Option Int
  nextBackup : Option Int
deriving DecidableEq, Repr

/-! ## Parsing `backupTime` (`settings.backupTime.split(':').map(Number)`) -/

/-- `String.split` on one separator character, over the character list. -/
def splitOnChar (sep : Char) : List Char → List (List Char)
  | [] => [[]]
  | c :: cs =>
    if c = sep then [] :: splitOnChar sep cs
    else
      match splitOnChar sep cs with
      | [] => [[c]]
      | p :: ps => (c :: p) :: ps

/-- Value of a non-empty all-digit character run (the defined, non-`NaN`
fragment of JavaScript's `Number`; a well-formed `"HH"`/`"MM"` field). -/
def decDigitsVal : List Char → Option Nat
  | [] => none
  | cs => go cs 0
where
  go : List Char → Nat → Option Nat
    | [], acc => some acc
    | c :: cs, acc =>
      if '0' ≤ c ∧ c ≤ '9' then go cs (acc * 10 + (c.toNat - '0'.toNat))
      else none

/-- The scheduler's destructuring `const [hours, minutes] = backupTime.split(':').map(Number)`.
Returns `none` on any input on which `Number` would yield `NaN` or the split
does not have exactly two fields (the `NaN`-poisoned path of the source,
which produces an Invalid Date, is not modelled further). -/
def parseBackupTime (s : String) : Option (Nat × Nat) :=
  match splitOnChar ':' s.data with
  | [hs, ms] =>
    match decDigitsVal hs, decDigitsVal ms with
    | some h, some mi => some (h, mi)
    | _, _ => none
  | _ => none

/-! ## The recurrence calculator (`calculateNextBackupTime`) -/

/-- The monthly clamping loop
`while (getDate() !== targetDate) { setDate(0); setDate(targetDate); }`,
with explicit fuel: `none` means the loop has not finished within `fuel`
iterations (and, as proved below, on the affected inputs it never does). -/
def monthLoop : Nat → Int → DateTime → Option DateTime
  | 0, _, _ => none
  | fuel + 1, target, s =>
    if (s.day : Int) = target then some s
    else monthLoop fuel target (setDate (setDate s 0) target)

/-- `calculateNextBackupTime` from `src/lib/scheduler`, with `now` (the
source's `new Date()`) passed explicitly and the monthly loop fuelled.
Returns the `getTime()` of the computed trigger. -/
def calculateNextBackupTime (loopFuel : Nat) (settings : BackupSettings)
    (now : DateTime) : Option Int :=
  match parseBackupTime settings.backupTime with
  | none => none
  | some (hours, minutes) =>
    let nextBackup := setHours now hours minutes
    match settings.frequency with
    | .daily =>
      let nb := if toTs nextBackup ≤ toTs now
                then setDate nextBackup ((nextBackup.day : Int) + 1) else nextBackup
      some (toTs nb)
    | .weekly =>
      let targetDay := settings.backupDay.getD 0
      let currentDay := weekday now
      let d0 := targetDay - currentDay
      let daysUntilTarget :=
        if d0 < 0 ∨ (d0 = 0 ∧ toTs nextBackup ≤ toTs now) then d0 + 7 else d0
      let nb := setDate nextBackup ((nextBackup.day : Int) + daysUntilTarget)
      let nb := if toTs nb ≤ toTs now then setDate nb ((nb.day : Int) + 7) else nb
      some (toTs nb)
    | .monthly =>
      let targetDate := settings.backupDay.getD 1
      let nb := setDate nextBackup targetDate
      let nb := if toTs nb ≤ toTs now then setMonth nb ((nb.month : Int) + 1) else nb
      (monthLoop loopFuel targetDate nb).map toTs
    | .custom =>
      let intervalDays := settings.customIntervalDays.getD 7
      let nb := if toTs nextBackup ≤ toTs now
                then setDate nextBackup ((nextBackup.day : Int) + intervalDays) else nextBackup
      some (toTs nb)

/-! ## Calendar lemmas -/

theorem daysInMonth_ge (y : Int) (m : Nat) : 28 ≤ daysInMonth y m := by
  unfold daysInMonth
  split
  · split <;> omega
  · split <;> omega

theorem daysInMonth_le (y : Int) (m : Nat) : daysInMonth y m ≤ 31 := by
  unfold daysInMonth
  split
  · split <;> omega
  · split <;> omega

theorem dby_step (y : Int) : dby (y + 1) = dby y + (if isLeap y then 366 else 365) := by
  simp only [isLeap, dby]
  by_cases h4 : y % 4 = 0 <;> by_cases h100 : y % 100 = 0 <;> by_cases h400 : y % 400 = 0 <;>
    simp [h4, h100, h400] <;> omega

theorem monthOffset_twelve (y : Int) :
    (monthOffset y 12 : Int) = if isLeap y then 366 else 365 := by
  simp only [monthOffset, daysInMonth]
  norm_num
  cases isLeap y <;> simp

/-- Advancing to the next month, within the same year. -/
theorem civilDays_month_succ (y : Int) (m : Nat) (d : Int) :
    civilDays y (m + 1) d = civilDays y m (d + daysInMonth y m) := by
  simp only [civilDays, monthOffset]
  push_cast
  ring

/-- Advancing from December to January of the next year. -/
theorem civilDays_year_wrap (y : Int) (d : Int) :
    civilDays (y + 1) 0 d = civilDays y 11 (d + daysInMonth y 11) := by
  have h12 : (monthOffset y 12 : Int) = monthOffset y 11 + daysInMonth y 11 := by
    simp only [monthOffset]; push_cast; ring
  have h1 := dby_step y
  have h2 := monthOffset_twelve y
  have h0 : monthOffset (y + 1) 0 = 0 := rfl
  simp only [civilDays]
  omega

/-- `rollDayF` preserves the linear day number and, given enough fuel,
produces a normalized date. -/
theorem rollDayF_spec : ∀ (fuel : Nat) (y : Int) (m : Nat) (d : Int), m < 12 →
    (if d ≤ 0 then 32 - d else d) ≤ (fuel : Int) →
    civilDays (rollDayF fuel y m d).1 (rollDayF fuel y m d).2.1
        ((rollDayF fuel y m d).2.2 : Int) = civilDays y m d ∧
    (rollDayF fuel y m d).2.1 < 12 ∧ 1 ≤ (rollDayF fuel y m d).2.2 ∧
    (rollDayF fuel y m d).2.2 ≤ daysInMonth (rollDayF fuel y m d).1 (rollDayF fuel y m d).2.1 := by
  intro fuel
  induction fuel with
  | zero =>
    intro y m d hm hf
    split at hf <;> omega
  | succ fuel ih =>
    intro y m d hm hf
    match m with
    | 0 =>
      rw [rollDayF]
      by_cases h0 : d ≤ 0
      · rw [if_pos h0]
        have hd : daysInMonth (y - 1) 11 ≥ 28 := daysInMonth_ge _ _
        have hd2 : daysInMonth (y - 1) 11 ≤ 31 := daysInMonth_le _ _
        have hrec := ih (y - 1) 11 (d + daysInMonth (y - 1) 11) (by omega)
          (by split at hf <;> split <;> omega)
        refine ⟨?_, hrec.2.1, hrec.2.2.1, hrec.2.2.2⟩
        rw [hrec.1]
        have he : civilDays y 0 d = civilDays (y - 1 + 1) 0 d := by norm_num
        rw [he, civilDays_year_wrap]
      · rw [if_neg h0]
        by_cases hov : (daysInMonth y 0 : Int) < d
        · rw [if_pos hov]
          have hd : daysInMonth y 0 ≥ 28 := daysInMonth_ge _ _
          have hrec := ih y 1 (d - daysInMonth y 0) (by omega)
            (by split at hf <;> split <;> omega)
          refine ⟨?_, hrec.2.1, hrec.2.2.1, hrec.2.2.2⟩
          rw [hrec.1, civilDays_month_succ]
          norm_num
        · rw [if_neg hov]
          exact ⟨by simp [civilDays]; omega, hm, by simp; omega, by simp; omega⟩
    | m0 + 1 =>
      rw [rollDayF]
      by_cases h0 : d ≤ 0
      · rw [if_pos h0]
        have hd : daysInMonth y m0 ≥ 28 := daysInMonth_ge _ _
        have hd2 : daysInMonth y m0 ≤ 31 := daysInMonth_le _ _
        have hrec := ih y m0 (d + daysInMonth y m0) (by omega)
          (by split at hf <;> split <;> omega)
        refine ⟨?_, hrec.2.1, hrec.2.2.1, hrec.2.2.2⟩
        rw [hrec.1, civilDays_month_succ]
      · rw [if_neg h0]
        by_cases hov : (daysInMonth y (m0 + 1) : Int) < d
        · rw [if_pos hov]
          have hd : daysInMonth y (m0 + 1) ≥ 28 := daysInMonth_ge _ _
          by_cases hm11 : m0 + 1 = 11
          · rw [if_pos hm11]
            have hrec := ih (y + 1) 0 (d - daysInMonth y (m0 + 1)) (by omega)
              (by split at hf <;> split <;> omega)
            refine ⟨?_, hrec.2.1, hrec.2.2.1, hrec.2.2.2⟩
            rw [hrec.1, civilDays_year_wrap, hm11]
            norm_num
          · rw [if_neg hm11]
            have hrec := ih y (m0 + 2) (d - daysInMonth y (m0 + 1)) (by omega)
              (by split at hf <;> split <;> omega)
            refine ⟨?_, hrec.2.1, hrec.2.2.1, hrec.2.2.2⟩
            rw [hrec.1]
            have he : m0 + 2 = (m0 + 1) + 1 := rfl
            rw [he, civilDays_month_succ]
            norm_num
        · rw [if_neg hov]
          exact ⟨by simp [civilDays]; omega, hm, by simp; omega, by simp; omega⟩

/-- `rollDay` specification (the wrapper always supplies enough fuel). -/
theorem rollDay_spec (y : Int) (m : Nat) (d : Int) (hm : m < 12) :
    civilDays (rollDay y m d).1 (rollDay y m d).2.1 ((rollDay y m d).2.2 : Int) =
        civilDays y m d ∧
    (rollDay y m d).2.1 < 12 ∧ 1 ≤ (rollDay y m d).2.2 ∧
    (rollDay y m d).2.2 ≤ daysInMonth (rollDay y m d).1 (rollDay y m d).2.1 := by
  apply rollDayF_spec (d.natAbs + 40) y m d hm
  have := Int.natAbs_eq d
  split <;> omega

/-- A day value already in range is left unchanged, whatever the fuel. -/
theorem rollDayF_inRange (fuel : Nat) (y : Int) (m : Nat) (d : Int)
    (h1 : 1 ≤ d) (h2 : d ≤ (daysInMonth y m : Int)) :
    rollDayF fuel y m d = (y, m, d.toNat) := by
  cases fuel with
  | zero => rfl
  | succ fuel =>
    match m with
    | 0 => rw [rollDayF, if_neg (by omega), if_neg (by omega)]
    | m0 + 1 => rw [rollDayF, if_neg (by omega), if_neg (by omega)]

theorem rollDay_inRange (y : Int) (m : Nat) (d : Int)
    (h1 : 1 ≤ d) (h2 : d ≤ (daysInMonth y m : Int)) :
    rollDay y m d = (y, m, d.toNat) :=
  rollDayF_inRange _ y m d h1 h2

/-! ## Setter specifications -/

theorem setDate_spec (t : DateTime) (d : Int) (hm : t.month < 12) :
    daysOf (setDate t d) = daysOf t - t.day + d ∧
    (setDate t d).month < 12 ∧ 1 ≤ (setDate t d).day ∧
    (setDate t d).day ≤ daysInMonth (setDate t d).year (setDate t d).month ∧
    (setDate t d).hour = t.hour ∧ (setDate t d).minute = t.minute ∧
    (setDate t d).second = t.second ∧ (setDate t d).ms = t.ms := by
  have h := rollDay_spec t.year t.month d hm
  refine ⟨?_, h.2.1, h.2.2.1, h.2.2.2, rfl, rfl, rfl, rfl⟩
  have h1 := h.1
  show civilDays (rollDay t.year t.month d).1 (rollDay t.year t.month d).2.1
      ((rollDay t.year t.month d).2.2 : Int) = _
  rw [h1]
  simp only [daysOf, civilDays]
  omega

/-- A `setDate` to a day already in range only changes the day field. -/
theorem setDate_inRange (t : DateTime) (d : Int)
    (h1 : 1 ≤ d) (h2 : d ≤ (daysInMonth t.year t.month : Int)) :
    setDate t d = { t with day := d.toNat } := by
  simp only [setDate, rollDay_inRange t.year t.month d h1 h2]

theorem time_of_setHours (t : DateTime) (h mi : Nat) :
    (setHours t h mi).second = 0 ∧ (setHours t h mi).ms = 0 ∧
    daysOf (setHours t h mi) = daysOf t ∧ (setHours t h mi).day = t.day ∧
    (setHours t h mi).month = t.month ∧ (setHours t h mi).year = t.year :=
  ⟨rfl, rfl, rfl, rfl, rfl, rfl⟩

/-- Time-of-day part of the timestamp. -/
theorem toTs_split (t : DateTime) :
    toTs t = daysOf t * 86400000 +
      (t.hour * 3600000 + t.minute * 60000 + t.second * 1000 + t.ms : Nat) := by
  simp only [toTs]; push_cast; ring

theorem toTs_lt_of_daysOf_lt (a b : DateTime) (ha : ValidDT a)
    (h : daysOf a < daysOf b) : toTs a < toTs b := by
  obtain ⟨_, _, _, h4, h5, h6, h7⟩ := ha
  rw [toTs_split a, toTs_split b]
  have hb : (b.hour * 3600000 + b.minute * 60000 + b.second * 1000 + b.ms : Nat) ≥ 0 := by omega
  have hA : (a.hour * 3600000 + a.minute * 60000 + a.second * 1000 + a.ms : Nat) < 86400000 := by
    omega
  have := Int.ofNat_nonneg (b.hour * 3600000 + b.minute * 60000 + b.second * 1000 + b.ms)
  have hA2 : ((a.hour * 3600000 + a.minute * 60000 + a.second * 1000 + a.ms : Nat) : Int)
      < 86400000 := by exact_mod_cast hA
  nlinarith [h]

/-! ## The monthly loop on affected inputs: the body is a fixed point -/

/-- Year of the month following month `m` of year `y`. -/
def nextMonthYear (y : Int) (m : Nat) : Int := if m = 11 then y + 1 else y

/-- Index of the month following month `m`. -/
def nextMonthIdx (m : Nat) : Nat := if m = 11 then 0 else m + 1

/-- When the requested day exceeds the month's length (but is at most 31),
`rollDay` carries into the following month. -/
theorem rollDay_overflow (y : Int) (m : Nat) (target : Int) (hm : m < 12)
    (hov : (daysInMonth y m : Int) < target) (h31 : target ≤ 31) :
    rollDay y m target =
      (nextMonthYear y m, nextMonthIdx m, (target - daysInMonth y m).toNat) := by
  have hge := daysInMonth_ge y m
  have hle := daysInMonth_le y m
  match m with
  | 0 =>
    exfalso
    have : daysInMonth y 0 = 31 := by simp [daysInMonth]
    omega
  | m0 + 1 =>
    unfold rollDay
    have hfu : target.natAbs + 40 = (target.natAbs + 39) + 1 := by omega
    rw [hfu, rollDayF, if_neg (by omega), if_pos hov]
    by_cases h11 : m0 + 1 = 11
    · rw [if_pos h11]
      have hd0 := daysInMonth_ge (y + 1) 0
      rw [rollDayF_inRange _ _ _ _ (by omega) (by omega)]
      simp [nextMonthYear, nextMonthIdx, h11]
    · rw [if_neg h11]
      have hd0 := daysInMonth_ge y (m0 + 2)
      rw [rollDayF_inRange _ _ _ _ (by omega) (by omega)]
      simp [nextMonthYear, nextMonthIdx, h11]

/-- Rolling to day 0 of the month after `(y, m)` gives the last day of `(y, m)`. -/
theorem rollDay_zero_back (y : Int) (m : Nat) (hm : m < 12) :
    rollDay (nextMonthYear y m) (nextMonthIdx m) 0 = (y, m, daysInMonth y m) := by
  have hge := daysInMonth_ge y m
  have hle := daysInMonth_le y m
  by_cases h11 : m = 11
  · subst h11
    rw [show nextMonthYear y 11 = y + 1 from by rw [nextMonthYear]; norm_num,
        show nextMonthIdx 11 = 0 from by simp [nextMonthIdx]]
    unfold rollDay
    rw [show (0 : Int).natAbs + 40 = 39 + 1 from by omega, rollDayF, if_pos (by omega)]
    rw [show y + 1 - 1 = y from by omega]
    rw [rollDayF_inRange _ _ _ _ (by omega) (by omega)]
    simp only [Prod.mk.injEq]
    exact ⟨trivial, trivial, by omega⟩
  · rw [show nextMonthYear y m = y from by rw [nextMonthYear, if_neg h11],
        show nextMonthIdx m = m + 1 from by rw [nextMonthIdx, if_neg h11]]
    unfold rollDay
    rw [show (0 : Int).natAbs + 40 = 39 + 1 from by omega, rollDayF, if_pos (by omega)]
    rw [rollDayF_inRange _ _ _ _ (by omega) (by omega)]
    simp only [Prod.mk.injEq]
    exact ⟨trivial, trivial, by omega⟩

/-- On an overflowed state, one iteration of the clamping loop body
(`setDate(0); setDate(targetDate)`) returns to the very same state. -/
theorem monthBody_fixpoint (y : Int) (m : Nat) (target : Int) (s : DateTime)
    (hm : m < 12) (hov : (daysInMonth y m : Int) < target) (h31 : target ≤ 31)
    (hy : s.year = nextMonthYear y m) (hmo : s.month = nextMonthIdx m)
    (hd : (s.day : Int) = target - daysInMonth y m) :
    setDate (setDate s 0) target = s := by
  have h1 : setDate s 0 = { s with year := y, month := m, day := daysInMonth y m } := by
    simp only [setDate, hy, hmo, rollDay_zero_back y m hm]
  rw [h1]
  simp only [setDate, rollDay_overflow y m target hm hov h31]
  cases s with
  | mk sy sm sd hh mm ss mss =>
    simp only [DateTime.mk.injEq, and_true] at hy hmo hd ⊢
    exact ⟨hy.symm, hmo.symm, by omega⟩

/-- If the state's day misses the target and the body is a fixed point, the
clamping loop never terminates, whatever the fuel. -/
theorem monthLoop_none (target : Int) (s : DateTime)
    (hday : (s.day : Int) ≠ target) (hfix : setDate (setDate s 0) target = s) :
    ∀ fuel, monthLoop fuel target s = none := by
  intro fuel
  induction fuel with
  | zero => rfl
  | succ fuel ih => rw [monthLoop, if_neg hday, hfix]; exact ih

/-! ## Branch equations for `calculateNextBackupTime` -/

theorem calc_eq_daily (fuel : Nat) (s : BackupSettings) (now : DateTime) (hh mi : Nat)
    (hp : parseBackupTime s.backupTime = some (hh, mi)) (hf : s.frequency = .daily) :
    calculateNextBackupTime fuel s now =
      some (toTs (if toTs (setHours now hh mi) ≤ toTs now
        then setDate (setHours now hh mi) (((setHours now hh mi).day : Int) + 1)
        else setHours now hh mi)) := by
  unfold calculateNextBackupTime
  rw [hp, hf]

theorem calc_eq_weekly (fuel : Nat) (s : BackupSettings) (now : DateTime) (hh mi : Nat)
    (hp : parseBackupTime s.backupTime = some (hh, mi)) (hf : s.frequency = .weekly) :
    calculateNextBackupTime fuel s now =
      some (toTs (
        if toTs (setDate (setHours now hh mi) (((setHours now hh mi).day : Int) +
            (if s.backupDay.getD 0 - weekday now < 0 ∨
                (s.backupDay.getD 0 - weekday now = 0 ∧
                  toTs (setHours now hh mi) ≤ toTs now)
             then s.backupDay.getD 0 - weekday now + 7
             else s.backupDay.getD 0 - weekday now))) ≤ toTs now
        then setDate (setDate (setHours now hh mi) (((setHours now hh mi).day : Int) +
            (if s.backupDay.getD 0 - weekday now < 0 ∨
                (s.backupDay.getD 0 - weekday now = 0 ∧
                  toTs (setHours now hh mi) ≤ toTs now)
             then s.backupDay.getD 0 - weekday now + 7
             else s.backupDay.getD 0 - weekday now)))
          (((setDate (setHours now hh mi) (((setHours now hh mi).day : Int) +
            (if s.backupDay.getD 0 - weekday now < 0 ∨
                (s.backupDay.getD 0 - weekday now = 0 ∧
                  toTs (setHours now hh mi) ≤ toTs now)
             then s.backupDay.getD 0 - weekday now + 7
             else s.backupDay.getD 0 - weekday now))).day : Int) + 7)
        else setDate (setHours now hh mi) (((setHours now hh mi).day : Int) +
            (if s.backupDay.getD 0 - weekday now < 0 ∨
                (s.backupDay.getD 0 - weekday now = 0 ∧
                  toTs (setHours now hh mi) ≤ toTs now)
             then s.backupDay.getD 0 - weekday now + 7
             else s.backupDay.getD 0 - weekday now)))) := by
  unfold calculateNextBackupTime
  rw [hp, hf]

theorem calc_eq_monthly (fuel : Nat) (s : BackupSettings) (now : DateTime) (hh mi : Nat)
    (hp : parseBackupTime s.backupTime = some (hh, mi)) (hf : s.frequency = .monthly) :
    calculateNextBackupTime fuel s now =
      (monthLoop fuel (s.backupDay.getD 1) (
        if toTs (setDate (setHours now hh mi) (s.backupDay.getD 1)) ≤ toTs now
        then setMonth (setDate (setHours now hh mi) (s.backupDay.getD 1))
          (((setDate (setHours now hh mi) (s.backupDay.getD 1)).month : Int) + 1)
        else setDate (setHours now hh mi) (s.backupDay.getD 1))).map toTs := by
  unfold calculateNextBackupTime
  rw [hp, hf]

theorem calc_eq_custom (fuel : Nat) (s : BackupSettings) (now : DateTime) (hh mi : Nat)
    (hp : parseBackupTime s.backupTime = some (hh, mi)) (hf : s.frequency = .custom) :
    calculateNextBackupTime fuel s now =
      some (toTs (if toTs (setHours now hh mi) ≤ toTs now
        then setDate (setHours now hh mi)
          (((setHours now hh mi).day : Int) + s.customIntervalDays.getD 7)
        else setHours now hh mi)) := by
  unfold calculateNextBackupTime
  rw [hp, hf]

/-! ## Minute alignment (claim C10) -/

theorem ts_minute_aligned (st : DateTime) (h2 : st.second = 0) (h3 : st.ms = 0) :
    toTs st % 60000 = 0 ∧ (toTs st / 1000) % 60 = 0 := by
  rw [toTs_split, h2, h3]
  generalize daysOf st = D
  push_cast
  omega

theorem monthLoop_time (target : Int) : ∀ (fuel : Nat) (s s2 : DateTime),
    monthLoop fuel target s = some s2 → s2.second = s.second ∧ s2.ms = s.ms := by
  intro fuel
  induction fuel with
  | zero => intro s s2 h; exact absurd h (by simp [monthLoop])
  | succ fuel ih =>
    intro s s2 h
    rw [monthLoop] at h
    split at h
    · cases h; exact ⟨rfl, rfl⟩
    · exact ih (setDate (setDate s 0) target) s2 h

/-! ## Strict-future lemmas for each recurrence branch (claim C3) -/

theorem tsWeekday_toTs (st : DateTime) (h4 : st.hour < 24) (h5 : st.minute < 60)
    (h6 : st.second < 60) (h7 : st.ms < 1000) : tsWeekday (toTs st) = weekday st := by
  rw [toTs_split]
  unfold tsWeekday weekday
  generalize daysOf st = D
  have hlt : (st.hour * 3600000 + st.minute * 60000 + st.second * 1000 + st.ms : Nat)
      < 86400000 := by omega
  have hlt2 : ((st.hour * 3600000 + st.minute * 60000 + st.second * 1000 + st.ms : Nat) : Int)
      < 86400000 := by exact_mod_cast hlt
  omega

/-- Daily/custom step: advancing `k ≥ 1` days from the candidate (when the
candidate is not in the future) lands strictly after `now`. -/
theorem step_days_future (now : DateTime) (hv : ValidDT now) (hh mi : Nat) (k : Int)
    (hk : 1 ≤ k) :
    toTs now < toTs (if toTs (setHours now hh mi) ≤ toTs now
      then setDate (setHours now hh mi) (((setHours now hh mi).day : Int) + k)
      else setHours now hh mi) := by
  split
  case isTrue hle =>
    have hs := setDate_spec (setHours now hh mi) (((setHours now hh mi).day : Int) + k) hv.1
    apply toTs_lt_of_daysOf_lt now _ hv
    rw [hs.1]
    have e1 : daysOf (setHours now hh mi) = daysOf now := rfl
    omega
  case isFalse hgt => omega

/-- Weekly step, after the day delta has been applied: whatever the final
guard decides, the result is strictly future and lands on the target weekday. -/
theorem weekly_post (now nb1 : DateTime) (hv : ValidDT now)
    (h4 : nb1.hour < 24) (h5 : nb1.minute < 60) (h6 : nb1.second < 60) (h7 : nb1.ms < 1000)
    (hm12 : nb1.month < 12) (du : Int) (hdays : daysOf nb1 = daysOf now + du) (hdu0 : 0 ≤ du)
    (target : Int) (h0 : 0 ≤ target) (ht7 : target < 7)
    (hmod : (weekday now + du) % 7 = target % 7) :
    toTs now < toTs (if toTs nb1 ≤ toTs now then setDate nb1 ((nb1.day : Int) + 7) else nb1) ∧
    tsWeekday (toTs (if toTs nb1 ≤ toTs now
      then setDate nb1 ((nb1.day : Int) + 7) else nb1)) = target := by
  have hwn : weekday now = (daysOf now + 6) % 7 := rfl
  split
  case isTrue hle =>
    have hs := setDate_spec nb1 ((nb1.day : Int) + 7) hm12
    constructor
    · apply toTs_lt_of_daysOf_lt now _ hv
      omega
    · rw [tsWeekday_toTs _ (by omega) (by omega) (by omega) (by omega)]
      show (daysOf (setDate nb1 ((nb1.day : Int) + 7)) + 6) % 7 = target
      omega
  case isFalse hgt =>
    refine ⟨by omega, ?_⟩
    rw [tsWeekday_toTs _ h4 h5 h6 h7]
    show (daysOf nb1 + 6) % 7 = target
    omega

/-! ## Monthly branch helpers -/

theorem nextMonthIdx_lt (m : Nat) (hm : m < 12) : nextMonthIdx m < 12 := by
  unfold nextMonthIdx; split <;> omega

theorem civilDays_nextMonth (y : Int) (m : Nat) (d : Int) (hm : m < 12) :
    civilDays (nextMonthYear y m) (nextMonthIdx m) d = civilDays y m (d + daysInMonth y m) := by
  unfold nextMonthYear nextMonthIdx
  by_cases h11 : m = 11
  · subst h11; simp only [if_pos rfl]; exact civilDays_year_wrap y d
  · simp only [if_neg h11]; exact civilDays_month_succ y m d

theorem setMonth_succ (t : DateTime) (hm : t.month < 12) :
    setMonth t ((t.month : Int) + 1) =
      { t with
        year := (rollDay (nextMonthYear t.year t.month) (nextMonthIdx t.month) (t.day : Int)).1,
        month := (rollDay (nextMonthYear t.year t.month) (nextMonthIdx t.month) (t.day : Int)).2.1,
        day := (rollDay (nextMonthYear t.year t.month) (nextMonthIdx t.month) (t.day : Int)).2.2 } := by
  unfold setMonth
  have h1 : t.year + ((t.month : Int) + 1) / 12 = nextMonthYear t.year t.month := by
    unfold nextMonthYear
    split
    case isTrue h => rw [h]; norm_num
    case isFalse h =>
      have : (t.month : Int) < 11 := by
        have := Nat.lt_of_le_of_ne (Nat.le_of_lt_succ hm) h
        exact_mod_cast this
      omega
  have h2 : (((t.month : Int) + 1) % 12).toNat = nextMonthIdx t.month := by
    unfold nextMonthIdx
    split
    case isTrue h => rw [h]; norm_num
    case isFalse h =>
      have : (t.month : Int) < 11 := by
        have := Nat.lt_of_le_of_ne (Nat.le_of_lt_succ hm) h
        exact_mod_cast this
      omega
  rw [h1, h2]

theorem monthLoop_done (fuel : Nat) (target : Int) (s : DateTime)
    (h : (s.day : Int) = target) : monthLoop (fuel + 1) target s = some s := by
  rw [monthLoop, if_pos h]

/-- Well-formedness of the settings, as the specification documents them:
a parseable in-range `HH:MM` backup time, a weekday 0–6 for weekly, a
day-of-month 1–31 for monthly, and a positive custom interval. -/
def WFSettings (s : BackupSettings) : Prop :=
  (∃ hh mi, parseBackupTime s.backupTime = some (hh, mi) ∧ hh < 24 ∧ mi < 60) ∧
  (s.frequency = .weekly → 0 ≤ s.backupDay.getD 0 ∧ s.backupDay.getD 0 < 7) ∧
  (s.frequency = .monthly → 1 ≤ s.backupDay.getD 1 ∧ s.backupDay.getD 1 ≤ 31) ∧
  (s.frequency = .custom → 1 ≤ s.customIntervalDays.getD 7)


/-- The monthly branch: whenever the loop terminates, the result is strictly
after `now`. -/
theorem monthly_future (fuel : Nat) (now : DateTime) (hv : ValidDT now) (hh mi : Nat)
    (target : Int) (ht1 : 1 ≤ target) (ht31 : target ≤ 31) (t : Int)
    (h : (monthLoop fuel target (
        if toTs (setDate (setHours now hh mi) target) ≤ toTs now
        then setMonth (setDate (setHours now hh mi) target)
          (((setDate (setHours now hh mi) target).month : Int) + 1)
        else setDate (setHours now hh mi) target)).map toTs = some t) :
    toTs now < t := by
  obtain ⟨hm12, hd1, hd2, h4, h5, h6, h7⟩ := hv
  have hdge := daysInMonth_ge now.year now.month
  have hdle := daysInMonth_le now.year now.month
  have hTN : ((target.toNat : Nat) : Int) = target := by omega
  by_cases hov : target ≤ (daysInMonth now.year now.month : Int)
  · -- the requested day fits in now's month
    have hnb1 : setDate (setHours now hh mi) target =
        ⟨now.year, now.month, target.toNat, hh, mi, 0, 0⟩ := by
      rw [setDate_inRange (setHours now hh mi) target ht1 hov]
      rfl
    rw [hnb1] at h
    have hnb1days : daysOf (⟨now.year, now.month, target.toNat, hh, mi, 0, 0⟩ : DateTime) =
        daysOf now - now.day + target := by
      simp only [daysOf, civilDays]
      omega
    split at h
    · -- candidate not in the future: advance one month
      rename_i hle
      have hnm12 : nextMonthIdx now.month < 12 := nextMonthIdx_lt _ hm12
      have hdge2 := daysInMonth_ge (nextMonthYear now.year now.month) (nextMonthIdx now.month)
      have hdle2 := daysInMonth_le (nextMonthYear now.year now.month) (nextMonthIdx now.month)
      by_cases hov2 : ((target.toNat : Nat) : Int) ≤
          (daysInMonth (nextMonthYear now.year now.month) (nextMonthIdx now.month) : Int)
      · -- fits in the next month: the loop exits at once with day = target
        have hsm2 : setMonth (⟨now.year, now.month, target.toNat, hh, mi, 0, 0⟩ : DateTime)
            (((⟨now.year, now.month, target.toNat, hh, mi, 0, 0⟩ : DateTime).month : Int) + 1) =
            ⟨nextMonthYear now.year now.month, nextMonthIdx now.month,
              target.toNat, hh, mi, 0, 0⟩ := by
          rw [setMonth_succ (⟨now.year, now.month, target.toNat, hh, mi, 0, 0⟩ : DateTime) hm12]
          rw [rollDay_inRange (nextMonthYear now.year now.month) (nextMonthIdx now.month)
            ((target.toNat : Nat) : Int) (by omega) hov2]
          rfl
        rw [hsm2] at h
        cases fuel with
        | zero => exact absurd h (by simp [monthLoop])
        | succ fuel =>
          rw [monthLoop_done fuel target
            (⟨nextMonthYear now.year now.month, nextMonthIdx now.month,
              target.toNat, hh, mi, 0, 0⟩ : DateTime) hTN] at h
          have ht2 : toTs (⟨nextMonthYear now.year now.month, nextMonthIdx now.month,
              target.toNat, hh, mi, 0, 0⟩ : DateTime) = t := by simpa using h
          subst ht2
          apply toTs_lt_of_daysOf_lt now _ ⟨hm12, hd1, hd2, h4, h5, h6, h7⟩
          have hcn := civilDays_nextMonth now.year now.month ((target.toNat : Nat) : Int) hm12
          show daysOf now < daysOf (⟨nextMonthYear now.year now.month, nextMonthIdx now.month,
            target.toNat, hh, mi, 0, 0⟩ : DateTime)
          show daysOf now < civilDays (nextMonthYear now.year now.month)
            (nextMonthIdx now.month) (target.toNat : Nat)
          simp only [daysOf, civilDays] at *
          omega
      · -- overflows the next month too: the loop body is a fixed point
        push_neg at hov2
        have hsm2 : setMonth (⟨now.year, now.month, target.toNat, hh, mi, 0, 0⟩ : DateTime)
            (((⟨now.year, now.month, target.toNat, hh, mi, 0, 0⟩ : DateTime).month : Int) + 1) =
            ⟨nextMonthYear (nextMonthYear now.year now.month) (nextMonthIdx now.month),
              nextMonthIdx (nextMonthIdx now.month),
              (((target.toNat : Nat) : Int) -
                daysInMonth (nextMonthYear now.year now.month) (nextMonthIdx now.month)).toNat,
              hh, mi, 0, 0⟩ := by
          rw [setMonth_succ (⟨now.year, now.month, target.toNat, hh, mi, 0, 0⟩ : DateTime) hm12]
          rw [rollDay_overflow (nextMonthYear now.year now.month) (nextMonthIdx now.month)
            ((target.toNat : Nat) : Int) hnm12 hov2 (by omega)]
        rw [hsm2] at h
        have hdd2 : (((((target.toNat : Nat) : Int) -
            daysInMonth (nextMonthYear now.year now.month) (nextMonthIdx now.month)).toNat : Nat)
            : Int) = target -
            daysInMonth (nextMonthYear now.year now.month) (nextMonthIdx now.month) := by
          omega
        have hfix := monthBody_fixpoint (nextMonthYear now.year now.month)
          (nextMonthIdx now.month) target
          (⟨nextMonthYear (nextMonthYear now.year now.month) (nextMonthIdx now.month),
            nextMonthIdx (nextMonthIdx now.month),
            (((target.toNat : Nat) : Int) -
              daysInMonth (nextMonthYear now.year now.month) (nextMonthIdx now.month)).toNat,
            hh, mi, 0, 0⟩ : DateTime)
          hnm12 (by omega) ht31 rfl rfl hdd2
        have hdneq2 : (((((target.toNat : Nat) : Int) -
            daysInMonth (nextMonthYear now.year now.month) (nextMonthIdx now.month)).toNat : Nat)
            : Int) ≠ target := by omega
        rw [monthLoop_none target _ hdneq2 hfix fuel] at h
        exact absurd h (by simp)
    · -- candidate already in the future: the loop exits at once
      rename_i hgt
      cases fuel with
      | zero => exact absurd h (by simp [monthLoop])
      | succ fuel =>
        rw [monthLoop_done fuel target
          (⟨now.year, now.month, target.toNat, hh, mi, 0, 0⟩ : DateTime) hTN] at h
        have ht2 : toTs (⟨now.year, now.month, target.toNat, hh, mi, 0, 0⟩ : DateTime) = t := by
          simpa using h
        omega
  · -- the requested day overflows now's month: the loop never terminates
    push_neg at hov
    have hex := rollDay_overflow now.year now.month target hm12 hov ht31
    have hnb1 : setDate (setHours now hh mi) target =
        ⟨nextMonthYear now.year now.month, nextMonthIdx now.month,
         (target - daysInMonth now.year now.month).toNat, hh, mi, 0, 0⟩ := by
      simp only [setDate]
      rw [show (setHours now hh mi).year = now.year from rfl,
          show (setHours now hh mi).month = now.month from rfl, hex]
      rfl
    rw [hnb1] at h
    have hdd : (((target - daysInMonth now.year now.month).toNat : Nat) : Int) =
        target - daysInMonth now.year now.month := by omega
    have hdays : daysOf (⟨nextMonthYear now.year now.month, nextMonthIdx now.month,
        (target - daysInMonth now.year now.month).toNat, hh, mi, 0, 0⟩ : DateTime) =
        daysOf now - now.day + target := by
      show civilDays (nextMonthYear now.year now.month) (nextMonthIdx now.month) _ = _
      have hcn := civilDays_nextMonth now.year now.month
        (((target - daysInMonth now.year now.month).toNat : Nat) : Int) hm12
      simp only [daysOf, civilDays] at *
      omega
    have hgt : toTs now < toTs (⟨nextMonthYear now.year now.month, nextMonthIdx now.month,
        (target - daysInMonth now.year now.month).toNat, hh, mi, 0, 0⟩ : DateTime) := by
      apply toTs_lt_of_daysOf_lt now _ ⟨hm12, hd1, hd2, h4, h5, h6, h7⟩
      omega
    rw [if_neg (by omega)] at h
    have hfix := monthBody_fixpoint now.year now.month target
      (⟨nextMonthYear now.year now.month, nextMonthIdx now.month,
        (target - daysInMonth now.year now.month).toNat, hh, mi, 0, 0⟩ : DateTime)
      hm12 hov ht31 rfl rfl hdd
    have hdneq : (((target - daysInMonth now.year now.month).toNat : Nat) : Int) ≠ target := by
      omega
    rw [monthLoop_none target _ hdneq hfix fuel] at h
    exact absurd h (by simp)

/-! ## Claim theorems for the recurrence calculator -/

/-- C3: for every frequency, well-formed settings and valid `now`, any
timestamp the calculator returns is strictly greater than `now` (strictness
subsumes the allowed exact-instant boundary case), and for weekly frequency
the returned instant falls on the weekday given by `backupDay`. -/
theorem claim_c3_trigger_strictly_future (fuel : Nat) (s : BackupSettings)
    (now : DateTime) (t : Int) (hv : ValidDT now) (hwf : WFSettings s)
    (h : calculateNextBackupTime fuel s now = some t) :
    toTs now < t ∧ (s.frequency = .weekly → tsWeekday t = s.backupDay.getD 0) := by
  obtain ⟨⟨hh, mi, hp, h24, h60⟩, hwk, hmo, hcu⟩ := hwf
  have e1 : daysOf (setHours now hh mi) = daysOf now := rfl
  have e2 : ((setHours now hh mi).day : Int) = (now.day : Int) := rfl
  cases hf : s.frequency with
  | daily =>
    rw [calc_eq_daily fuel s now hh mi hp hf] at h
    injection h with h2
    refine ⟨?_, fun habs => Frequency.noConfusion habs⟩
    rw [← h2]
    exact step_days_future now hv hh mi 1 (by omega)
  | custom =>
    rw [calc_eq_custom fuel s now hh mi hp hf] at h
    injection h with h2
    refine ⟨?_, fun habs => Frequency.noConfusion habs⟩
    rw [← h2]
    exact step_days_future now hv hh mi (s.customIntervalDays.getD 7) (hcu hf)
  | monthly =>
    rw [calc_eq_monthly fuel s now hh mi hp hf] at h
    exact ⟨monthly_future fuel now hv hh mi (s.backupDay.getD 1) (hmo hf).1 (hmo hf).2 t h,
      fun habs => Frequency.noConfusion habs⟩
  | weekly =>
    rw [calc_eq_weekly fuel s now hh mi hp hf] at h
    obtain ⟨htg0, htg7⟩ := hwk hf
    have hwd0 : 0 ≤ weekday now := by unfold weekday; omega
    have hwd7 : weekday now < 7 := by unfold weekday; omega
    by_cases hc : s.backupDay.getD 0 - weekday now < 0 ∨
        (s.backupDay.getD 0 - weekday now = 0 ∧ toTs (setHours now hh mi) ≤ toTs now)
    · rw [if_pos hc] at h
      injection h with h2
      have hsd := setDate_spec (setHours now hh mi)
        (((setHours now hh mi).day : Int) + (s.backupDay.getD 0 - weekday now + 7)) hv.1
      have hwp := weekly_post now
        (setDate (setHours now hh mi)
          (((setHours now hh mi).day : Int) + (s.backupDay.getD 0 - weekday now + 7)))
        hv
        (by rw [hsd.2.2.2.2.1]; exact h24)
        (by rw [hsd.2.2.2.2.2.1]; exact h60)
        (by rw [hsd.2.2.2.2.2.2.1]; exact (by norm_num : (0 : Nat) < 60))
        (by rw [hsd.2.2.2.2.2.2.2]; exact (by norm_num : (0 : Nat) < 1000))
        hsd.2.1
        (s.backupDay.getD 0 - weekday now + 7)
        (by omega)
        (by omega)
        (s.backupDay.getD 0) htg0 htg7
        (by omega)
      rw [← h2]
      exact ⟨hwp.1, fun _ => hwp.2⟩
    · rw [if_neg hc] at h
      injection h with h2
      push_neg at hc
      have hsd := setDate_spec (setHours now hh mi)
        (((setHours now hh mi).day : Int) + (s.backupDay.getD 0 - weekday now)) hv.1
      have hwp := weekly_post now
        (setDate (setHours now hh mi)
          (((setHours now hh mi).day : Int) + (s.backupDay.getD 0 - weekday now)))
        hv
        (by rw [hsd.2.2.2.2.1]; exact h24)
        (by rw [hsd.2.2.2.2.2.1]; exact h60)
        (by rw [hsd.2.2.2.2.2.2.1]; exact (by norm_num : (0 : Nat) < 60))
        (by rw [hsd.2.2.2.2.2.2.2]; exact (by norm_num : (0 : Nat) < 1000))
        hsd.2.1
        (s.backupDay.getD 0 - weekday now)
        (by omega)
        (by omega)
        (s.backupDay.getD 0) htg0 htg7
        (by omega)
      rw [← h2]
      exact ⟨hwp.1, fun _ => hwp.2⟩

theorem monthly_minute (fuel : Nat) (target : Int) (st : DateTime) (t : Int)
    (hsec : st.second = 0) (hms : st.ms = 0)
    (h : (monthLoop fuel target st).map toTs = some t) :
    t % 60000 = 0 ∧ (t / 1000) % 60 = 0 := by
  rcases hml : monthLoop fuel target st with _ | s2 <;> rw [hml] at h
  · exact absurd h (by simp)
  · have hpr := monthLoop_time target fuel st s2 hml
    have ht2 : toTs s2 = t := by simpa using h
    subst ht2
    exact ts_minute_aligned s2 (by omega) (by omega)

/-- C10: every timestamp the calculator returns lies on an exact local-time
minute boundary — seconds and milliseconds components are both zero
(the candidate is built by `setHours(h, m, 0, 0)` and only whole-day or
whole-month arithmetic follows). -/
theorem claim_c10_minute_boundary (fuel : Nat) (s : BackupSettings) (now : DateTime)
    (t : Int) (h : calculateNextBackupTime fuel s now = some t) :
    t % 60000 = 0 ∧ (t / 1000) % 60 = 0 := by
  rcases hp2 : parseBackupTime s.backupTime with _ | ⟨hh, mi⟩
  · unfold calculateNextBackupTime at h
    rw [hp2] at h
    exact absurd h (by simp)
  · cases hf : s.frequency with
    | daily =>
      rw [calc_eq_daily fuel s now hh mi hp2 hf] at h
      injection h with h2
      rw [← h2]
      split <;> exact ts_minute_aligned _ rfl rfl
    | custom =>
      rw [calc_eq_custom fuel s now hh mi hp2 hf] at h
      injection h with h2
      rw [← h2]
      split <;> exact ts_minute_aligned _ rfl rfl
    | weekly =>
      rw [calc_eq_weekly fuel s now hh mi hp2 hf] at h
      injection h with h2
      rw [← h2]
      split <;> split <;> exact ts_minute_aligned _ rfl rfl
    | monthly =>
      rw [calc_eq_monthly fuel s now hh mi hp2 hf] at h
      refine monthly_minute fuel (s.backupDay.getD 1) _ t ?_ ?_ h
      · split <;> rfl
      · split <;> rfl

/-! ## Concrete settings for witnesses and counterexamples -/

/-- Daily backups at 09:00 (all other fields at their defaults). -/
def dailyAtNine : BackupSettings :=
  ⟨true, .daily, none, "09:00", none, .html, true, .extension, "BookmarkBackups",
   false, none, 5, none, none⟩

/-- Weekly backups on Sunday at 09:00. -/
def weeklySunday : BackupSettings :=
  ⟨true, .weekly, none, "09:00", some 0, .html, true, .extension, "BookmarkBackups",
   false, none, 5, none, none⟩

/-- Monthly backups on day 31 at 09:00 — the day-clamping configurations. -/
def monthlyAt31 : BackupSettings :=
  ⟨true, .monthly, none, "09:00", some 31, .html, true, .extension, "BookmarkBackups",
   false, none, 5, none, none⟩

theorem claim_c3_witness :
    toTs ⟨2024, 0, 3, 8, 0, 0, 0⟩ < toTs ⟨2024, 0, 7, 9, 0, 0, 0⟩ ∧
    (weeklySunday.frequency = .weekly →
      tsWeekday (toTs ⟨2024, 0, 7, 9, 0, 0, 0⟩) = weeklySunday.backupDay.getD 0) :=
  claim_c3_trigger_strictly_future 1 weeklySunday ⟨2024, 0, 3, 8, 0, 0, 0⟩
    (toTs ⟨2024, 0, 7, 9, 0, 0, 0⟩) (by decide)
    ⟨⟨9, 0, by decide, by decide, by decide⟩, by decide, by decide, by decide⟩
    (by decide)

theorem claim_c10_witness :
    toTs ⟨2024, 0, 2, 9, 0, 0, 0⟩ % 60000 = 0 ∧
    (toTs ⟨2024, 0, 2, 9, 0, 0, 0⟩ / 1000) % 60 = 0 :=
  claim_c10_minute_boundary 1 dailyAtNine ⟨2024, 0, 1, 10, 0, 0, 0⟩
    (toTs ⟨2024, 0, 2, 9, 0, 0, 0⟩) (by decide)

/-- C1 (code bug): with frequency = monthly, `backupDay = 31` and now =
2024-06-15 09:00 (June has 30 days), the "handle months with fewer days"
loop alternates between June 30 and July 1 states and never terminates, so
`calculateNextBackupTime` returns nothing at any fuel — instead of the
specified clamp to June 30. -/
theorem claim_c1_monthly_clamp_diverges (fuel : Nat) :
    calculateNextBackupTime fuel monthlyAt31 ⟨2024, 5, 15, 9, 0, 0, 0⟩ = none := by
  rw [calc_eq_monthly fuel monthlyAt31 ⟨2024, 5, 15, 9, 0, 0, 0⟩ 9 0 (by decide) rfl]
  show (monthLoop fuel 31 ⟨2024, 6, 1, 9, 0, 0, 0⟩).map toTs = none
  rw [monthLoop_none 31 ⟨2024, 6, 1, 9, 0, 0, 0⟩ (by decide) (by decide) fuel]
  rfl

/-- C2 (code bug): the monthly clamping loop does not terminate on every
in-range input: with `backupDay = 31` and now = 2024-02-10 09:00 the state
cycles between Feb 29 and Mar 2 forever, so the function never returns. -/
theorem claim_c2_monthly_loop_divergence (fuel : Nat) :
    calculateNextBackupTime fuel monthlyAt31 ⟨2024, 1, 10, 9, 0, 0, 0⟩ = none := by
  rw [calc_eq_monthly fuel monthlyAt31 ⟨2024, 1, 10, 9, 0, 0, 0⟩ 9 0 (by decide) rfl]
  show (monthLoop fuel 31 ⟨2024, 2, 2, 9, 0, 0, 0⟩).map toTs = none
  rw [monthLoop_none 31 ⟨2024, 2, 2, 9, 0, 0, 0⟩ (by decide) (by decide) fuel]
  rfl

/-! ## History ledger (`src/lib/storage`, claim C4) -/

/-- One row of the backup history (`BackupHistoryItem` in `src/types`). -/
structure BackupHistoryItem where
  id : String
  timestamp : Nat
  filename : String
  bookmarkCount : Nat
  format : BackupFormat
  size : Nat
  data : Option String
deriving DecidableEq, Repr

/-- `addBackupToHistory` from `src/lib/storage`: `history.unshift(item)` then
`history.slice(0, settings.keepBackupCount)`, persisted. The persisted list
and the current `keepBackupCount` are passed explicitly (they are read from
the key-value store in the source). -/
def addBackupToHistory (item : BackupHistoryItem) (history : List BackupHistoryItem)
    (keepBackupCount : Nat) : List BackupHistoryItem :=
  (item :: history).take keepBackupCount

/-- C4: after any append the ledger holds at most `keepBackupCount` items,
the new item sits at index 0, the remaining entries are the previous entries
in their prior order truncated to the cap, and a full ledger stays exactly at
the cap with the oldest entry evicted. -/
theorem claim_c4_history_bounded (item : BackupHistoryItem)
    (history : List BackupHistoryItem) (cap : Nat) (hcap : 1 ≤ cap) :
    (addBackupToHistory item history cap).length ≤ cap ∧
    (addBackupToHistory item history cap).head? = some item ∧
    (addBackupToHistory item history cap).tail = history.take (cap - 1) ∧
    (cap ≤ history.length → (addBackupToHistory item history cap).length = cap) := by
  obtain ⟨k, rfl⟩ : ∃ k, cap = k + 1 := ⟨cap - 1, by omega⟩
  unfold addBackupToHistory
  rw [List.take_succ_cons]
  refine ⟨?_, rfl, rfl, ?_⟩
  · simp only [List.length_cons, List.length_take]
    omega
  · intro hl
    simp only [List.length_cons, List.length_take]
    omega

/-- A concrete history item for the witness scenario. -/
def histItem (n : Nat) : BackupHistoryItem :=
  ⟨"id", n, "bookmarks-backup.html", 3, .html, 100, none⟩

theorem claim_c4_witness :
    (addBackupToHistory (histItem 6)
      [histItem 5, histItem 4, histItem 3, histItem 2, histItem 1] 5).length ≤ 5 ∧
    (addBackupToHistory (histItem 6)
      [histItem 5, histItem 4, histItem 3, histItem 2, histItem 1] 5).head? =
        some (histItem 6) ∧
    (addBackupToHistory (histItem 6)
      [histItem 5, histItem 4, histItem 3, histItem 2, histItem 1] 5).tail =
        [histItem 5, histItem 4, histItem 3, histItem 2, histItem 1].take (5 - 1) ∧
    (5 ≤ [histItem 5, histItem 4, histItem 3, histItem 2, histItem 1].length →
      (addBackupToHistory (histItem 6)
        [histItem 5, histItem 4, histItem 3, histItem 2, histItem 1] 5).length = 5) :=
  claim_c4_history_bounded (histItem 6)
    [histItem 5, histItem 4, histItem 3, histItem 2, histItem 1] 5 (by omega)

/-! ## Bookmark tree and serializer (`src/lib/bookmarks`) -/

/-- `BookmarkNode` from `src/types`: a recursive tree node; `url` absent
means "folder". -/
inductive BookmarkNode where
  | mk (id : String) (title : String) (url : Option String) (dateAdded : Option Nat)
       (dateGroupModified : Option Nat) (children : Option (List BookmarkNode))
       (parentId : Option String)

def BookmarkNode.id : BookmarkNode → String
  | .mk i _ _ _ _ _ _ => i

def BookmarkNode.title : BookmarkNode → String
  | .mk _ t _ _ _ _ _ => t

def BookmarkNode.url : BookmarkNode → Option String
  | .mk _ _ u _ _ _ _ => u

def BookmarkNode.dateAdded : BookmarkNode → Option Nat
  | .mk _ _ _ d _ _ _ => d

def BookmarkNode.dateGroupModified : BookmarkNode → Option Nat
  | .mk _ _ _ _ d _ _ => d

def BookmarkNode.children : BookmarkNode → Option (List BookmarkNode)
  | .mk _ _ _ _ _ c _ => c

/-- JavaScript truthiness of an optional string field (`if (node.url)`):
the field is present and non-empty. -/
def truthyStr : Option String → Bool
  | none => false
  | some s => !s.isEmpty

/-- JavaScript truthiness of an optional number field (`node.dateAdded ? … : ""`):
present and non-zero. -/
def truthyNum : Option Nat → Bool
  | none => false
  | some n => n != 0

mutual
/-- The node part of `countBookmarks` from `src/lib/bookmarks`: the `traverse`
closure counts a node iff `node.url` is truthy, then descends into
`node.children` when present. -/
def countNode : BookmarkNode → Nat
  | .mk _ _ u _ _ ch _ =>
    (if truthyStr u then 1 else 0) +
    (match ch with
     | some l => countChildren l
     | none => 0)
def countChildren : List BookmarkNode → Nat
  | [] => 0
  | n :: ns => countNode n + countChildren ns
end

def countBookmarks (nodes : List BookmarkNode) : Nat := countChildren nodes

/-- The `BackupData` envelope from `src/types`. -/
structure BackupData where
  version : String
  exportDate : String
  browserInfo : String
  totalBookmarks : Nat
  bookmarks : List BookmarkNode

/-- Bool-valued list prefix test (used by the substring machinery below). -/
def isPre : List Char → List Char → Bool
  | [], _ => true
  | _ :: _, [] => false
  | a :: as, b :: bs => a == b && isPre as bs

/-- `String.includes` of JavaScript, over character lists. -/
def hasSub (p : List Char) : List Char → Bool
  | [] => p.isEmpty
  | c :: cs => isPre p (c :: cs) || hasSub p cs

/-- `createBackupData` from `src/lib/bookmarks`; the ambient
`navigator.userAgent` string and `new Date().toISOString()` are passed
explicitly. -/
def createBackupData (userAgent exportDate : String) (bookmarks : List BookmarkNode) :
    BackupData :=
  let browserInfo :=
    if hasSub "Edg".data userAgent.data then "Microsoft Edge"
    else if hasSub "Brave".data userAgent.data then "Brave Browser"
    else if hasSub "Chrome".data userAgent.data then "Google Chrome"
    else if hasSub "Safari".data userAgent.data then "Safari"
    else "Unknown Browser"
  ⟨"1.0.0", exportDate, browserInfo, countBookmarks bookmarks, bookmarks⟩

/-- The apostrophe character (escaped by `escapeHtml`). -/
def apostChar : Char := Char.ofNat 39

/-- One character of `escapeHtml`'s regex replacement map. -/
def escChar (c : Char) : List Char :=
  if c = '&' then "&amp;".data
  else if c = '<' then "&lt;".data
  else if c = '>' then "&gt;".data
  else if c = '"' then "&quot;".data
  else if c = apostChar then "&#039;".data
  else [c]

def escapeHtmlChars : List Char → List Char
  | [] => []
  | c :: cs => escChar c ++ escapeHtmlChars cs

/-- `escapeHtml` from `src/lib/bookmarks`. -/
def escapeHtml (s : String) : String := ⟨escapeHtmlChars s.data⟩

/-- Decimal digit characters of `n`, most significant first (the result of
JavaScript's number-to-string conversion for integers; fuel-structural). -/
def natDigitsGo : Nat → Nat → List Char → List Char
  | 0, _, acc => acc
  | fuel + 1, n, acc =>
    let d := Char.ofNat (48 + n % 10)
    if n < 10 then d :: acc else natDigitsGo fuel (n / 10) (d :: acc)

def natDigits (n : Nat) : List Char := natDigitsGo (n + 1) n []

/-- The fixed preamble of `exportAsHTML` (DOCTYPE, comment, META, TITLE, H1,
and the top-level `<DL><p>` opening). -/
def htmlHeader : List Char :=
  ("<!DOCTYPE NETSCAPE-Bookmark-file-1>\n" ++
   "<!-- This is an automatically generated file.\n" ++
   "     It will be read and overwritten.\n" ++
   "     DO NOT EDIT! -->\n" ++
   "<META HTTP-EQUIV=\"Content-Type\" CONTENT=\"text/html; charset=UTF-8\">\n" ++
   "<TITLE>Bookmarks</TITLE>\n" ++
   "<H1>Bookmarks</H1>\n" ++
   "<DL><p>\n").data

/-- The source's `addDate` local: ` ADD_DATE="<seconds>"` when `dateAdded`
is truthy, empty otherwise (seconds = `Math.floor(dateAdded / 1000)`). -/
def addDatePart (dateAdded : Option Nat) : List Char :=
  if truthyNum dateAdded
  then " ADD_DATE=\"".data ++ natDigits (dateAdded.getD 0 / 1000) ++ "\"".data
  else []

/-- The source's `modDate` local: ` LAST_MODIFIED="<seconds>"` when
`dateGroupModified` is truthy, empty otherwise. -/
def modDatePart (dateGroupModified : Option Nat) : List Char :=
  if truthyNum dateGroupModified
  then " LAST_MODIFIED=\"".data ++ natDigits (dateGroupModified.getD 0 / 1000) ++ "\"".data
  else []

mutual
/-- `processNode` from `exportAsHTML` in `src/lib/bookmarks`: URL nodes
render one `<DT><A …>` line; titled folders render a `<DT><H3 …>` heading and
a `<DL><p>` … `</DL><p>` block around their children at deeper indentation;
title-less, url-less nodes contribute their children without a wrapper. -/
def processNode (node : BookmarkNode) (indent : List Char) : List Char :=
  match node with
  | .mk _ title url dateAdded dateGroupModified children _ =>
    if truthyStr url then
      indent ++ "<DT><A HREF=\"".data ++ escapeHtmlChars (url.getD "").data ++ "\"".data ++
        addDatePart dateAdded ++
        ">".data ++ escapeHtmlChars title.data ++ "</A>\n".data
    else if !title.isEmpty then
      indent ++ "<DT><H3".data ++ modDatePart dateGroupModified ++
        ">".data ++ escapeHtmlChars title.data ++ "</H3>\n".data ++
      indent ++ "<DL><p>\n".data ++
      (match children with
       | some l => processChildren l (indent ++ "    ".data)
       | none => []) ++
      indent ++ "</DL><p>\n".data
    else
      match children with
      | some l => processChildren l indent
      | none => []
def processChildren (nodes : List BookmarkNode) (indent : List Char) : List Char :=
  match nodes with
  | [] => []
  | n :: ns => processNode n indent ++ processChildren ns indent
end

/-- `exportAsHTML` from `src/lib/bookmarks`. -/
def exportAsHTML (data : BackupData) : String :=
  ⟨htmlHeader ++ processChildren data.bookmarks "    ".data ++ "</DL><p>\n".data⟩

/-! ## Claim C6: `countBookmarks` versus "url is present" -/

mutual
/-- Spec-side count, following the claim's words literally: a node counts
when its `url` field is present (whether or not it is empty). -/
def presentNode : BookmarkNode → Nat
  | .mk _ _ u _ _ ch _ =>
    (if u.isSome then 1 else 0) +
    (match ch with
     | some l => presentChildren l
     | none => 0)
def presentChildren : List BookmarkNode → Nat
  | [] => 0
  | n :: ns => presentNode n + presentChildren ns
end

def countUrlPresent (nodes : List BookmarkNode) : Nat := presentChildren nodes

mutual
/-- Spec-side count as amended: a node counts when its `url` field is present
and non-empty (JavaScript truthiness — exactly what the code tests). -/
def nonEmptyNode : BookmarkNode → Nat
  | .mk _ _ u _ _ ch _ =>
    (match u with
     | some s => if s.isEmpty then 0 else 1
     | none => 0) +
    (match ch with
     | some l => nonEmptyChildren l
     | none => 0)
def nonEmptyChildren : List BookmarkNode → Nat
  | [] => 0
  | n :: ns => nonEmptyNode n + nonEmptyChildren ns
end

def countUrlNonEmpty (nodes : List BookmarkNode) : Nat := nonEmptyChildren nodes

/-- C6 counterexample: a single node whose `url` is present but empty. The
claim's count (`url` present) is 1, yet `countBookmarks` returns 0 — the
source tests JavaScript truthiness, under which `""` is falsy. -/
theorem claim_c6_counterexample :
    countBookmarks [BookmarkNode.mk "1" "t" (some "") none none none none] = 0 ∧
    countUrlPresent [BookmarkNode.mk "1" "t" (some "") none none none none] = 1 := by
  decide

mutual
def sizeNode : BookmarkNode → Nat
  | .mk _ _ _ _ _ ch _ =>
    1 + (match ch with
         | some l => sizeList l
         | none => 0)
def sizeList : List BookmarkNode → Nat
  | [] => 0
  | n :: ns => 1 + sizeNode n + sizeList ns
end

/-! Equation lemmas for the mutually recursive functions over the nested
bookmark tree (their definitional unfolding is not available on open terms). -/

theorem sizeNode_eq (i t : String) (u : Option String) (da dgm : Option Nat)
    (ch : Option (List BookmarkNode)) (pid : Option String) :
    sizeNode (.mk i t u da dgm ch pid) =
      1 + (match ch with
           | some l => sizeList l
           | none => 0) := by
  rw [sizeNode.eq_def]

theorem sizeList_cons (n : BookmarkNode) (ns : List BookmarkNode) :
    sizeList (n :: ns) = 1 + sizeNode n + sizeList ns := by
  rw [sizeList.eq_def]

theorem countNode_eq (i t : String) (u : Option String) (da dgm : Option Nat)
    (ch : Option (List BookmarkNode)) (pid : Option String) :
    countNode (.mk i t u da dgm ch pid) =
      (if truthyStr u then 1 else 0) +
      (match ch with
       | some l => countChildren l
       | none => 0) := by
  rw [countNode.eq_def]

theorem countChildren_cons (n : BookmarkNode) (ns : List BookmarkNode) :
    countChildren (n :: ns) = countNode n + countChildren ns := by
  rw [countChildren.eq_def]

theorem nonEmptyNode_eq (i t : String) (u : Option String) (da dgm : Option Nat)
    (ch : Option (List BookmarkNode)) (pid : Option String) :
    nonEmptyNode (.mk i t u da dgm ch pid) =
      (match u with
       | some str => if str.isEmpty then 0 else 1
       | none => 0) +
      (match ch with
       | some l => nonEmptyChildren l
       | none => 0) := by
  rw [nonEmptyNode.eq_def]

theorem nonEmptyChildren_cons (n : BookmarkNode) (ns : List BookmarkNode) :
    nonEmptyChildren (n :: ns) = nonEmptyNode n + nonEmptyChildren ns := by
  rw [nonEmptyChildren.eq_def]

theorem sizeNode_pos (n : BookmarkNode) : 1 ≤ sizeNode n := by
  cases n with
  | mk i t u da dgm ch pid => rw [sizeNode_eq]; omega

/-- Joint induction over bookmark trees and forests (the tree type nests a
list, so this is proved by strong induction on the size measure). -/
theorem bookmarkTree_ind (P : BookmarkNode → Prop) (Q : List BookmarkNode → Prop)
    (hnil : Q [])
    (hcons : ∀ n ns, P n → Q ns → Q (n :: ns))
    (hmk : ∀ i t u da dgm ch pid, (∀ l, ch = some l → Q l) →
      P (.mk i t u da dgm ch pid)) :
    (∀ n, P n) ∧ (∀ l, Q l) := by
  have key : ∀ k, (∀ n, sizeNode n ≤ k → P n) ∧ (∀ l, sizeList l ≤ k → Q l) := by
    intro k
    induction k using Nat.strong_induction_on with
    | _ k ih =>
      constructor
      · intro n hn
        cases n with
        | mk i t u da dgm ch pid =>
          apply hmk
          intro l hl
          subst hl
          rw [sizeNode_eq] at hn
          have hn2 : 1 + sizeList l ≤ k := by simpa using hn
          exact (ih (k - 1) (by omega)).2 l (by omega)
      · intro l hl
        cases l with
        | nil => exact hnil
        | cons n ns =>
          rw [sizeList_cons] at hl
          have hp := sizeNode_pos n
          exact hcons n ns ((ih (k - 1) (by omega)).1 n (by omega))
            ((ih (k - 1) (by omega)).2 ns (by omega))
  exact ⟨fun n => (key (sizeNode n)).1 n le_rfl, fun l => (key (sizeList l)).2 l le_rfl⟩

theorem count_eq_nonEmpty_all :
    (∀ n, countNode n = nonEmptyNode n) ∧
    (∀ l, countChildren l = nonEmptyChildren l) := by
  apply bookmarkTree_ind
    (fun n => countNode n = nonEmptyNode n)
    (fun l => countChildren l = nonEmptyChildren l)
  · rfl
  · intro n ns hn hns
    rw [countChildren_cons, nonEmptyChildren_cons, hn, hns]
  · intro i t u da dgm ch pid hch
    rw [countNode_eq, nonEmptyNode_eq]
    cases ch with
    | none =>
      cases u with
      | none => simp [truthyStr]
      | some str => by_cases hs : str.isEmpty <;> simp [truthyStr, hs]
    | some l =>
      have h2 := hch l rfl
      cases u with
      | none => simp [truthyStr, h2]
      | some str => by_cases hs : str.isEmpty <;> simp [truthyStr, hs, h2]

/-- C6 (amended): `countBookmarks` returns exactly the number of nodes whose
`url` is present **and non-empty**, at any nesting depth; folders and
empty-`url` nodes contribute 0. -/
theorem claim_c6_count_nonempty_urls (nodes : List BookmarkNode) :
    countBookmarks nodes = countUrlNonEmpty nodes :=
  count_eq_nonEmpty_all.2 nodes

/-! ## Claim C5: occurrence counting for the HTML export -/

/-- Number of positions at which `p` occurs as a substring. -/
def countPat (p : List Char) : List Char → Nat
  | [] => 0
  | c :: cs => (if isPre p (c :: cs) = true then 1 else 0) + countPat p cs

/-- The `<DL><p>` opening line content (with trailing newline). -/
def dlOpen : List Char := ['<', 'D', 'L', '>', '<', 'p', '>', '\n']

/-- The `</DL><p>` closing line content (with trailing newline). -/
def dlClose : List Char := ['<', '/', 'D', 'L', '>', '<', 'p', '>', '\n']

/-- The prefix of every rendered bookmark anchor. -/
def anchorPat : List Char := ['<', 'D', 'T', '>', '<', 'A', ' ', 'H', 'R', 'E', 'F', '=', '"']

theorem isPre_self_append (p r : List Char) : isPre p (p ++ r) = true := by
  induction p with
  | nil => rfl
  | cons c cs ih => simp [isPre, ih]

/-- A pattern whose only possible newline is its last character cannot
straddle a chunk boundary that sits right after a newline. -/
theorem isPre_stop_at_nl (p : List Char) (hp : '\n' ∉ p.dropLast) :
    ∀ (s2 b : List Char), isPre p (s2 ++ '\n' :: b) = isPre p (s2 ++ ['\n']) := by
  induction p with
  | nil => intro s2 b; rfl
  | cons x p2 ih =>
    intro s2 b
    cases s2 with
    | nil =>
      simp only [List.nil_append]
      by_cases hx : x = '\n'
      · subst hx
        cases p2 with
        | nil => simp [isPre]
        | cons y p3 =>
          exfalso
          apply hp
          show '\n' ∈ ('\n' :: y :: p3).dropLast
          simp [List.dropLast]
      · have hx2 : (x == '\n') = false := by simp [hx]
        simp [isPre, hx2]
    | cons c s2t =>
      simp only [List.cons_append, isPre, List.append_eq]
      have hp2 : '\n' ∉ p2.dropLast := by
        intro hmem
        apply hp
        cases p2 with
        | nil => simp at hmem
        | cons y p3 =>
          show '\n' ∈ (x :: y :: p3).dropLast
          simp [List.dropLast]
          right
          simpa [List.dropLast] using hmem
      rw [ih hp2 s2t b]

/-- Occurrence counting distributes over a chunk boundary when the left chunk
ends in a newline and the pattern has no interior newline. -/
theorem countPat_append_nl (p : List Char) (hp : '\n' ∉ p.dropLast) :
    ∀ (a2 b : List Char),
      countPat p (a2 ++ '\n' :: b) = countPat p (a2 ++ ['\n']) + countPat p b := by
  intro a2
  induction a2 with
  | nil =>
    intro b
    simp only [List.nil_append, countPat, List.append_eq]
    have hstep := isPre_stop_at_nl p hp [] b
    simp only [List.nil_append] at hstep
    simp only [hstep]
    simp [countPat]
  | cons c t ih =>
    intro b
    have hstep := isPre_stop_at_nl p hp (c :: t) b
    simp only [List.cons_append, countPat, List.append_eq] at *
    simp only [hstep, ih b]
    omega

/-- The left chunk is empty or ends with a newline. -/
def endsNl (xs : List Char) : Prop := xs = [] ∨ ∃ t, xs = t ++ ['\n']

theorem countPat_append_endsNl (p a b : List Char) (hp : '\n' ∉ p.dropLast)
    (ha : endsNl a) : countPat p (a ++ b) = countPat p a + countPat p b := by
  rcases ha with rfl | ⟨t, rfl⟩
  · simp [countPat]
  · rw [List.append_assoc, List.singleton_append]
    exact countPat_append_nl p hp t b

/-- Occurrences of a `'<'`-headed pattern skip over `'<'`-free text. -/
theorem countPat_ltfree (p2 e : List Char) (he : '<' ∉ e) (r : List Char) :
    countPat ('<' :: p2) (e ++ r) = countPat ('<' :: p2) r := by
  induction e with
  | nil => rfl
  | cons c t ih =>
    have hc : c ≠ '<' := fun h => he (h ▸ List.mem_cons_self _ _)
    have hc2 : ('<' == c) = false := by simp [hc.symm]
    simp only [List.cons_append, countPat, isPre, hc2, Bool.false_and, List.append_eq]
    rw [ih (fun h => he (List.mem_cons_of_mem _ h))]
    simp

/-! ### Character classes of escaped text and digit runs -/

theorem escChar_not_special (c x : Char) (hx : x ∈ escChar c) :
    x ≠ '<' ∧ x ≠ '>' ∧ x ≠ '"' ∧ x ≠ apostChar := by
  unfold escChar at hx
  by_cases h1 : c = '&'
  · rw [if_pos h1] at hx
    fin_cases hx <;> decide
  · rw [if_neg h1] at hx
    by_cases h2 : c = '<'
    · rw [if_pos h2] at hx
      fin_cases hx <;> decide
    · rw [if_neg h2] at hx
      by_cases h3 : c = '>'
      · rw [if_pos h3] at hx
        fin_cases hx <;> decide
      · rw [if_neg h3] at hx
        by_cases h4 : c = '"'
        · rw [if_pos h4] at hx
          fin_cases hx <;> decide
        · rw [if_neg h4] at hx
          by_cases h5 : c = apostChar
          · rw [if_pos h5] at hx
            fin_cases hx <;> decide
          · rw [if_neg h5] at hx
            simp at hx
            subst hx
            exact ⟨h2, h3, h4, h5⟩

theorem escapeHtmlChars_not_special (s : List Char) :
    ∀ x ∈ escapeHtmlChars s, x ≠ '<' ∧ x ≠ '>' ∧ x ≠ '"' ∧ x ≠ apostChar := by
  induction s with
  | nil => intro x hx; simp [escapeHtmlChars] at hx
  | cons c cs ih =>
    intro x hx
    rw [escapeHtmlChars] at hx
    rcases List.mem_append.mp hx with h | h
    · exact escChar_not_special c x h
    · exact ih x h

theorem escapeHtmlChars_no_lt (s : List Char) : '<' ∉ escapeHtmlChars s := by
  intro h
  exact (escapeHtmlChars_not_special s '<' h).1 rfl

theorem natDigitsGo_mem : ∀ (fuel n : Nat) (acc : List Char), ∀ c ∈ natDigitsGo fuel n acc,
    c ∈ acc ∨ ∃ k, k < 10 ∧ c = Char.ofNat (48 + k) := by
  intro fuel
  induction fuel with
  | zero => intro n acc c hc; exact Or.inl hc
  | succ fuel ih =>
    intro n acc c hc
    rw [natDigitsGo] at hc
    split at hc
    · rcases List.mem_cons.mp hc with h | h
      · exact Or.inr ⟨n % 10, Nat.mod_lt _ (by omega), h⟩
      · exact Or.inl h
    · rcases ih (n / 10) _ c hc with h | h
      · rcases List.mem_cons.mp h with h2 | h2
        · exact Or.inr ⟨n % 10, Nat.mod_lt _ (by omega), h2⟩
        · exact Or.inl h2
      · exact Or.inr h

theorem digitChar_not_lt_nl (k : Nat) (hk : k < 10) :
    Char.ofNat (48 + k) ≠ '<' ∧ Char.ofNat (48 + k) ≠ '\n' := by
  interval_cases k <;> exact ⟨by decide, by decide⟩

theorem natDigits_no_lt (n : Nat) : '<' ∉ natDigits n := by
  intro h
  rcases natDigitsGo_mem (n + 1) n [] '<' h with h2 | ⟨k, hk, h2⟩
  · simp at h2
  · exact (digitChar_not_lt_nl k hk).1 h2.symm

theorem natDigits_no_nl (n : Nat) : '\n' ∉ natDigits n := by
  intro h
  rcases natDigitsGo_mem (n + 1) n [] '\n' h with h2 | ⟨k, hk, h2⟩
  · simp at h2
  · exact (digitChar_not_lt_nl k hk).2 h2.symm

theorem addDatePart_no_lt (da : Option Nat) : '<' ∉ addDatePart da := by
  unfold addDatePart
  split
  · intro h
    rcases List.mem_append.mp h with h | h
    · rcases List.mem_append.mp h with h | h
      · revert h; decide
      · exact natDigits_no_lt _ h
    · revert h; decide
  · simp

theorem modDatePart_no_lt (dgm : Option Nat) : '<' ∉ modDatePart dgm := by
  unfold modDatePart
  split
  · intro h
    rcases List.mem_append.mp h with h | h
    · rcases List.mem_append.mp h with h | h
      · revert h; decide
      · exact natDigits_no_lt _ h
    · revert h; decide
  · simp

theorem indent_deeper_no_lt (ind : List Char) (hind : '<' ∉ ind) :
    '<' ∉ ind ++ "    ".data := by
  intro h
  rcases List.mem_append.mp h with h | h
  · exact hind h
  · revert h; decide

/-! ### Rendered line shapes -/

/-- One rendered bookmark anchor line. -/
def anchorLine (ind escU addD escT : List Char) : List Char :=
  ind ++ "<DT><A HREF=\"".data ++ escU ++ "\"".data ++ addD ++
    ">".data ++ escT ++ "</A>\n".data

/-- One rendered folder heading line. -/
def h3Line (ind modD escT : List Char) : List Char :=
  ind ++ "<DT><H3".data ++ modD ++ ">".data ++ escT ++ "</H3>\n".data

/-- One rendered `<DL><p>` opening line. -/
def openLine (ind : List Char) : List Char := ind ++ "<DL><p>\n".data

/-- One rendered `</DL><p>` closing line. -/
def closeLine (ind : List Char) : List Char := ind ++ "</DL><p>\n".data

theorem processNode_url (i t : String) (u : Option String) (da dgm : Option Nat)
    (ch : Option (List BookmarkNode)) (pid : Option String) (ind : List Char)
    (hu : truthyStr u = true) :
    processNode (.mk i t u da dgm ch pid) ind =
      anchorLine ind (escapeHtmlChars (u.getD "").data) (addDatePart da)
        (escapeHtmlChars t.data) := by
  rw [processNode.eq_def]
  simp [hu, anchorLine, List.append_assoc]

theorem processNode_folder (i t : String) (u : Option String) (da dgm : Option Nat)
    (ch : Option (List BookmarkNode)) (pid : Option String) (ind : List Char)
    (hu : truthyStr u = false) (ht : t.isEmpty = false) :
    processNode (.mk i t u da dgm ch pid) ind =
      h3Line ind (modDatePart dgm) (escapeHtmlChars t.data) ++
        (openLine ind ++
          ((match ch with
            | some l => processChildren l (ind ++ "    ".data)
            | none => []) ++
           closeLine ind)) := by
  rw [processNode.eq_def]
  simp [hu, ht, h3Line, openLine, closeLine, List.append_assoc]

theorem processNode_plain (i t : String) (u : Option String) (da dgm : Option Nat)
    (ch : Option (List BookmarkNode)) (pid : Option String) (ind : List Char)
    (hu : truthyStr u = false) (ht : t.isEmpty = true) :
    processNode (.mk i t u da dgm ch pid) ind =
      match ch with
      | some l => processChildren l ind
      | none => [] := by
  rw [processNode.eq_def]
  simp [hu, ht]

theorem processChildren_nil (ind : List Char) : processChildren [] ind = [] := by
  rw [processChildren.eq_def]

theorem processChildren_cons (n : BookmarkNode) (ns : List BookmarkNode)
    (ind : List Char) :
    processChildren (n :: ns) ind = processNode n ind ++ processChildren ns ind := by
  rw [processChildren.eq_def]

/-! ### Newline endings of rendered fragments -/

theorem endsNl_snoc_nl (a b t : List Char) (hb : b = t ++ ['\n']) : endsNl (a ++ b) := by
  subst hb
  exact Or.inr ⟨a ++ t, (List.append_assoc a t ['\n']).symm⟩

theorem endsNl_append (a b : List Char) (ha : endsNl a) (hb : endsNl b) :
    endsNl (a ++ b) := by
  rcases hb with rfl | ⟨t, rfl⟩
  · simpa using ha
  · exact endsNl_snoc_nl a _ t rfl

theorem endsNl_anchorLine (ind escU addD escT : List Char) :
    endsNl (anchorLine ind escU addD escT) := by
  unfold anchorLine
  exact endsNl_snoc_nl _ _ "</A>".data (by decide)

theorem endsNl_h3Line (ind modD escT : List Char) : endsNl (h3Line ind modD escT) := by
  unfold h3Line
  exact endsNl_snoc_nl _ _ "</H3>".data (by decide)

theorem endsNl_openLine (ind : List Char) : endsNl (openLine ind) := by
  unfold openLine
  exact endsNl_snoc_nl _ _ "<DL><p>".data (by decide)

theorem endsNl_closeLine (ind : List Char) : endsNl (closeLine ind) := by
  unfold closeLine
  exact endsNl_snoc_nl _ _ "</DL><p>".data (by decide)

/-! ### Per-line occurrence counts -/

theorem counts_anchorLine (ind escU addD escT : List Char)
    (hind : '<' ∉ ind) (hU : '<' ∉ escU) (hA : '<' ∉ addD) (hT : '<' ∉ escT) :
    countPat dlOpen (anchorLine ind escU addD escT) = 0 ∧
    countPat dlClose (anchorLine ind escU addD escT) = 0 ∧
    countPat anchorPat (anchorLine ind escU addD escT) = 1 := by
  refine ⟨?_, ?_, ?_⟩ <;>
  · simp only [anchorLine, dlOpen, dlClose, anchorPat, List.append_assoc]
    simp [countPat, isPre, countPat_ltfree _ ind hind, countPat_ltfree _ escU hU,
          countPat_ltfree _ addD hA, countPat_ltfree _ escT hT]

theorem counts_h3Line (ind modD escT : List Char)
    (hind : '<' ∉ ind) (hM : '<' ∉ modD) (hT : '<' ∉ escT) :
    countPat dlOpen (h3Line ind modD escT) = 0 ∧
    countPat dlClose (h3Line ind modD escT) = 0 ∧
    countPat anchorPat (h3Line ind modD escT) = 0 := by
  refine ⟨?_, ?_, ?_⟩ <;>
  · simp only [h3Line, dlOpen, dlClose, anchorPat, List.append_assoc]
    simp [countPat, isPre, countPat_ltfree _ ind hind, countPat_ltfree _ modD hM,
          countPat_ltfree _ escT hT]

theorem counts_openLine (ind : List Char) (hind : '<' ∉ ind) :
    countPat dlOpen (openLine ind) = 1 ∧
    countPat dlClose (openLine ind) = 0 ∧
    countPat anchorPat (openLine ind) = 0 := by
  refine ⟨?_, ?_, ?_⟩ <;>
  · simp only [openLine, dlOpen, dlClose, anchorPat, List.append_assoc]
    simp [countPat, isPre, countPat_ltfree _ ind hind]

theorem counts_closeLine (ind : List Char) (hind : '<' ∉ ind) :
    countPat dlOpen (closeLine ind) = 0 ∧
    countPat dlClose (closeLine ind) = 1 ∧
    countPat anchorPat (closeLine ind) = 0 := by
  refine ⟨?_, ?_, ?_⟩ <;>
  · simp only [closeLine, dlOpen, dlClose, anchorPat, List.append_assoc]
    simp [countPat, isPre, countPat_ltfree _ ind hind]

/-! ### Tree shape: `url` and `children` are mutually exclusive -/

mutual
/-- A Chrome bookmark tree never puts children under a node with a (truthy)
`url`; this mirrors the `chrome.bookmarks` API invariant. -/
def sepNode : BookmarkNode → Bool
  | .mk _ _ u _ _ ch _ =>
    !(truthyStr u && ch.isSome) &&
    (match ch with
     | some l => sepChildren l
     | none => true)
def sepChildren : List BookmarkNode → Bool
  | [] => true
  | n :: ns => sepNode n && sepChildren ns
end

theorem sepNode_eq (i t : String) (u : Option String) (da dgm : Option Nat)
    (ch : Option (List BookmarkNode)) (pid : Option String) :
    sepNode (.mk i t u da dgm ch pid) =
      (!(truthyStr u && ch.isSome) &&
       (match ch with
        | some l => sepChildren l
        | none => true)) := by
  rw [sepNode.eq_def]

theorem sepChildren_cons (n : BookmarkNode) (ns : List BookmarkNode) :
    sepChildren (n :: ns) = (sepNode n && sepChildren ns) := by
  rw [sepChildren.eq_def]

/-- Joint structural counting result for the HTML renderer: every rendered
fragment ends in a newline (or is empty), opens and closes of `<DL><p>` blocks
balance, and on separated trees the anchor count equals the bookmark count. -/
theorem html_counts :
    (∀ n, ∀ ind, '<' ∉ ind →
      endsNl (processNode n ind) ∧
      countPat dlOpen (processNode n ind) = countPat dlClose (processNode n ind) ∧
      (sepNode n = true → countPat anchorPat (processNode n ind) = countNode n)) ∧
    (∀ l, ∀ ind, '<' ∉ ind →
      endsNl (processChildren l ind) ∧
      countPat dlOpen (processChildren l ind) = countPat dlClose (processChildren l ind) ∧
      (sepChildren l = true →
        countPat anchorPat (processChildren l ind) = countChildren l)) := by
  apply bookmarkTree_ind
    (fun n => ∀ ind, '<' ∉ ind →
      endsNl (processNode n ind) ∧
      countPat dlOpen (processNode n ind) = countPat dlClose (processNode n ind) ∧
      (sepNode n = true → countPat anchorPat (processNode n ind) = countNode n))
    (fun l => ∀ ind, '<' ∉ ind →
      endsNl (processChildren l ind) ∧
      countPat dlOpen (processChildren l ind) = countPat dlClose (processChildren l ind) ∧
      (sepChildren l = true →
        countPat anchorPat (processChildren l ind) = countChildren l))
  · intro ind hind
    rw [processChildren_nil]
    exact ⟨Or.inl rfl, rfl, fun _ => rfl⟩
  · intro n ns hn hns ind hind
    obtain ⟨he1, hb1, ha1⟩ := hn ind hind
    obtain ⟨he2, hb2, ha2⟩ := hns ind hind
    rw [processChildren_cons]
    have hsplitO := countPat_append_endsNl dlOpen _ (processChildren ns ind)
      (by decide) he1
    have hsplitC := countPat_append_endsNl dlClose _ (processChildren ns ind)
      (by decide) he1
    have hsplitA := countPat_append_endsNl anchorPat _ (processChildren ns ind)
      (by decide) he1
    refine ⟨endsNl_append _ _ he1 he2, ?_, ?_⟩
    · rw [hsplitO, hsplitC, hb1, hb2]
    · intro hsep
      rw [sepChildren_cons, Bool.and_eq_true] at hsep
      rw [hsplitA, countChildren_cons, ha1 hsep.1, ha2 hsep.2]
  · intro i t u da dgm ch pid hch ind hind
    by_cases hu : truthyStr u = true
    · rw [processNode_url i t u da dgm ch pid ind hu]
      obtain ⟨hO, hC, hA⟩ := counts_anchorLine ind _ _ _ hind
        (escapeHtmlChars_no_lt _) (addDatePart_no_lt da) (escapeHtmlChars_no_lt _)
      refine ⟨endsNl_anchorLine _ _ _ _, by rw [hO, hC], ?_⟩
      intro hsep
      rw [sepNode_eq, Bool.and_eq_true, Bool.not_eq_true', Bool.and_eq_false_iff] at hsep
      rcases hsep.1 with h | h
      · rw [hu] at h; cases h
      · have hnone : ch = none := by
          cases ch with
          | none => rfl
          | some l => simp [Option.isSome] at h
        subst hnone
        rw [hA, countNode_eq, hu]
        simp
    · have hu2 : truthyStr u = false := by simpa using hu
      by_cases ht : t.isEmpty = true
      · rw [processNode_plain i t u da dgm ch pid ind hu2 ht]
        cases ch with
        | none =>
          refine ⟨Or.inl rfl, rfl, fun _ => ?_⟩
          rw [countNode_eq, hu2]
          simp [countPat]
        | some l =>
          obtain ⟨he, hb, ha⟩ := hch l rfl ind hind
          refine ⟨he, hb, fun hsep => ?_⟩
          rw [sepNode_eq, Bool.and_eq_true] at hsep
          have hsl : sepChildren l = true := by simpa using hsep.2
          rw [countNode_eq, hu2, ha hsl]
          simp
      · have ht2 : t.isEmpty = false := by simpa using ht
        rw [processNode_folder i t u da dgm ch pid ind hu2 ht2]
        have hind2 := indent_deeper_no_lt ind hind
        obtain ⟨hOa, hCa, hAa⟩ := counts_h3Line ind (modDatePart dgm)
          (escapeHtmlChars t.data) hind (modDatePart_no_lt dgm)
          (escapeHtmlChars_no_lt _)
        obtain ⟨hOb, hCb, hAb⟩ := counts_openLine ind hind
        obtain ⟨hOc, hCc, hAc⟩ := counts_closeLine ind hind
        cases ch with
        | none =>
          have hs : ∀ q : List Char, '\n' ∉ q.dropLast →
              countPat q (h3Line ind (modDatePart dgm) (escapeHtmlChars t.data) ++
                (openLine ind ++ (([] : List Char) ++ closeLine ind))) =
              countPat q (h3Line ind (modDatePart dgm) (escapeHtmlChars t.data)) +
                (countPat q (openLine ind) + countPat q (closeLine ind)) := by
            intro q hq
            rw [countPat_append_endsNl q _ _ hq (endsNl_h3Line _ _ _),
                countPat_append_endsNl q _ _ hq (endsNl_openLine _),
                List.nil_append]
          refine ⟨?_, ?_, ?_⟩
          · exact endsNl_append _ _ (endsNl_h3Line _ _ _)
              (endsNl_append _ _ (endsNl_openLine _)
                (by simpa using endsNl_closeLine ind))
          · rw [hs dlOpen (by decide), hs dlClose (by decide),
                hOa, hCa, hOb, hCb, hOc, hCc]
          · intro hsep
            rw [hs anchorPat (by decide), hAa, hAb, hAc, countNode_eq, hu2]
            simp
        | some l =>
          obtain ⟨heM, hbM, haM⟩ := hch l rfl _ hind2
          have hs : ∀ q : List Char, '\n' ∉ q.dropLast →
              countPat q (h3Line ind (modDatePart dgm) (escapeHtmlChars t.data) ++
                (openLine ind ++
                  (processChildren l (ind ++ "    ".data) ++ closeLine ind))) =
              countPat q (h3Line ind (modDatePart dgm) (escapeHtmlChars t.data)) +
                (countPat q (openLine ind) +
                  (countPat q (processChildren l (ind ++ "    ".data)) +
                   countPat q (closeLine ind))) := by
            intro q hq
            rw [countPat_append_endsNl q _ _ hq (endsNl_h3Line _ _ _),
                countPat_append_endsNl q _ _ hq (endsNl_openLine _),
                countPat_append_endsNl q _ _ hq heM]
          refine ⟨?_, ?_, ?_⟩
          · exact endsNl_append _ _ (endsNl_h3Line _ _ _)
              (endsNl_append _ _ (endsNl_openLine _)
                (endsNl_append _ _ heM (endsNl_closeLine _)))
          · rw [hs dlOpen (by decide), hs dlClose (by decide),
                hOa, hCa, hOb, hCb, hOc, hCc, hbM]
            omega
          · intro hsep
            rw [sepNode_eq, Bool.and_eq_true] at hsep
            have hsl : sepChildren l = true := by simpa using hsep.2
            rw [hs anchorPat (by decide), hAa, hAb, hAc, haM hsl,
                countNode_eq, hu2]
            simp

theorem endsNl_htmlHeader : endsNl htmlHeader :=
  Or.inr ⟨htmlHeader.dropLast, by decide⟩

theorem export_split (q : List Char) (hq : '\n' ∉ q.dropLast) (data : BackupData) :
    countPat q (exportAsHTML data).data =
      countPat q htmlHeader +
        (countPat q (processChildren data.bookmarks "    ".data) +
         countPat q "</DL><p>\n".data) := by
  show countPat q
      (htmlHeader ++ processChildren data.bookmarks "    ".data ++ "</DL><p>\n".data) = _
  rw [List.append_assoc,
      countPat_append_endsNl q _ _ hq endsNl_htmlHeader,
      countPat_append_endsNl q _ _ hq
        (html_counts.2 data.bookmarks "    ".data (by decide)).1]

/-- C5: the HTML export is well-formed. For every backup envelope the numbers
of `<DL><p>` openings and `</DL><p>` closings in the output coincide; on
separated trees (no children under a url node, the `chrome.bookmarks` shape)
the number of `<DT><A HREF="` anchors equals `countBookmarks`; escaped text
never contains a raw `<`, `>`, `"` or apostrophe, and the five special
characters map to their entities; a url node renders as exactly one anchor
line with url and title escaped; and a node with empty title, no url and
children contributes exactly its children's rendering, with no wrapper. -/
theorem claim_c5_html_well_formed :
    (∀ data : BackupData,
      countPat dlOpen (exportAsHTML data).data =
        countPat dlClose (exportAsHTML data).data) ∧
    (∀ data : BackupData, sepChildren data.bookmarks = true →
      countPat anchorPat (exportAsHTML data).data = countBookmarks data.bookmarks) ∧
    (∀ s : String, ∀ x ∈ (escapeHtml s).data,
      x ≠ '<' ∧ x ≠ '>' ∧ x ≠ '"' ∧ x ≠ apostChar) ∧
    escapeHtml ⟨['&', '<', '>', '"', apostChar]⟩ = "&amp;&lt;&gt;&quot;&#039;" ∧
    (∀ i t u da dgm ch pid ind, truthyStr u = true →
      processNode (.mk i t u da dgm ch pid) ind =
        anchorLine ind (escapeHtmlChars (u.getD "").data) (addDatePart da)
          (escapeHtmlChars t.data)) ∧
    (∀ i da dgm l pid ind,
      processNode (.mk i "" none da dgm (some l) pid) ind = processChildren l ind) := by
  refine ⟨?_, ?_, ?_, by decide, ?_, ?_⟩
  · intro data
    rw [export_split dlOpen (by decide) data, export_split dlClose (by decide) data,
        (html_counts.2 data.bookmarks "    ".data (by decide)).2.1]
    have h1 : countPat dlOpen htmlHeader = 1 := by decide
    have h2 : countPat dlClose htmlHeader = 0 := by decide
    have h3 : countPat dlOpen "</DL><p>\n".data = 0 := by decide
    have h4 : countPat dlClose "</DL><p>\n".data = 1 := by decide
    rw [h1, h2, h3, h4]
    omega
  · intro data hsep
    rw [export_split anchorPat (by decide) data,
        (html_counts.2 data.bookmarks "    ".data (by decide)).2.2 hsep]
    have h1 : countPat anchorPat htmlHeader = 0 := by decide
    have h2 : countPat anchorPat "</DL><p>\n".data = 0 := by decide
    rw [h1, h2]
    show 0 + (countChildren data.bookmarks + 0) = countChildren data.bookmarks
    omega
  · intro s x hx
    exact escapeHtmlChars_not_special s.data x hx
  · intro i t u da dgm ch pid ind hu
    exact processNode_url i t u da dgm ch pid ind hu
  · intro i da dgm l pid ind
    exact (processNode_plain i "" none da dgm (some l) pid ind rfl rfl).trans rfl

/-- A two-level example forest: a folder holding one bookmark whose url and
title need escaping. -/
def exForest : List BookmarkNode :=
  [.mk "2" "F" none none (some 7000)
    (some [.mk "1" "Ex & Co" (some "http://a?x=1&y<2") (some 5000) none none none])
    none]

theorem claim_c5_witness :
    countPat dlOpen (exportAsHTML (createBackupData "Chrome" "2024" exForest)).data =
      countPat dlClose (exportAsHTML (createBackupData "Chrome" "2024" exForest)).data ∧
    countPat anchorPat (exportAsHTML (createBackupData "Chrome" "2024" exForest)).data =
      countBookmarks exForest ∧
    ('a' ≠ '<' ∧ 'a' ≠ '>' ∧ 'a' ≠ '"' ∧ 'a' ≠ apostChar) ∧
    processNode (.mk "1" "T" (some "u") none none none none) [] =
      anchorLine [] (escapeHtmlChars "u".data) (addDatePart none)
        (escapeHtmlChars "T".data) :=
  ⟨claim_c5_html_well_formed.1 _,
   claim_c5_html_well_formed.2.1 _ (by decide),
   claim_c5_html_well_formed.2.2.1 "a" 'a' (by decide),
   claim_c5_html_well_formed.2.2.2.2.1 "1" "T" (some "u") none none none none []
     (by decide)⟩

/-! ## Claim C9: JSON export and round-trip

`exportAsJSON` is `JSON.stringify(data, null, 2)`: pretty-printed JSON with
two-space indentation, object fields in insertion order, fields holding
`undefined` omitted.  The grammar needed by the backup envelope is strings,
(natural) numbers, arrays and objects. -/

/-- JSON values (the fragment produced by the backup serializer). -/
inductive JVal where
  | jstr : List Char → JVal
  | jnum : Nat → JVal
  | jarr : List JVal → JVal
  | jobj : List (List Char × JVal) → JVal

/-- The `\x7b` character, kept out of string literals. -/
def lbrace : Char := Char.ofNat 123

/-- The `\x7d` character, kept out of string literals. -/
def rbrace : Char := Char.ofNat 125

mutual
def jsizeV : JVal → Nat
  | .jstr _ => 1
  | .jnum _ => 1
  | .jarr es => 1 + jsizeL es
  | .jobj fs => 1 + jsizeF fs
def jsizeL : List JVal → Nat
  | [] => 1
  | v :: vs => 1 + jsizeV v + jsizeL vs
def jsizeF : List (List Char × JVal) → Nat
  | [] => 1
  | (_, v) :: fs => 1 + jsizeV v + jsizeF fs
end

theorem jsizeV_arr (es : List JVal) : jsizeV (.jarr es) = 1 + jsizeL es := by
  rw [jsizeV.eq_def]

theorem jsizeV_obj (fs : List (List Char × JVal)) : jsizeV (.jobj fs) = 1 + jsizeF fs := by
  rw [jsizeV.eq_def]

theorem jsizeL_cons (v : JVal) (vs : List JVal) :
    jsizeL (v :: vs) = 1 + jsizeV v + jsizeL vs := by
  rw [jsizeL.eq_def]

theorem jsizeF_cons (k : List Char) (v : JVal) (fs : List (List Char × JVal)) :
    jsizeF ((k, v) :: fs) = 1 + jsizeV v + jsizeF fs := by
  rw [jsizeF.eq_def]

theorem jsizeV_pos (v : JVal) : 1 ≤ jsizeV v := by
  cases v with
  | jstr s => rw [jsizeV.eq_def]
  | jnum n => rw [jsizeV.eq_def]
  | jarr es => rw [jsizeV_arr]; omega
  | jobj fs => rw [jsizeV_obj]; omega

theorem jsizeL_pos (vs : List JVal) : 1 ≤ jsizeL vs := by
  cases vs with
  | nil => rw [jsizeL.eq_def]
  | cons v vs => rw [jsizeL_cons]; omega

theorem jsizeF_pos (fs : List (List Char × JVal)) : 1 ≤ jsizeF fs := by
  cases fs with
  | nil => rw [jsizeF.eq_def]
  | cons kv fs => obtain ⟨k, v⟩ := kv; rw [jsizeF_cons]; omega

/-- Joint induction over JSON values, value lists and field lists (the value
type nests both, so this is proved by strong induction on the size measure). -/
theorem jval_ind (P : JVal → Prop) (Q : List JVal → Prop)
    (R : List (List Char × JVal) → Prop)
    (hstr : ∀ s, P (.jstr s)) (hnum : ∀ n, P (.jnum n))
    (harr : ∀ es, Q es → P (.jarr es))
    (hobj : ∀ fs, R fs → P (.jobj fs))
    (hqnil : Q []) (hqcons : ∀ v vs, P v → Q vs → Q (v :: vs))
    (hrnil : R []) (hrcons : ∀ k v fs, P v → R fs → R ((k, v) :: fs)) :
    (∀ v, P v) ∧ (∀ vs, Q vs) ∧ (∀ fs, R fs) := by
  have key : ∀ b, (∀ v, jsizeV v ≤ b → P v) ∧ (∀ vs, jsizeL vs ≤ b → Q vs) ∧
      (∀ fs, jsizeF fs ≤ b → R fs) := by
    intro b
    induction b using Nat.strong_induction_on with
    | _ b ih =>
      refine ⟨?_, ?_, ?_⟩
      · intro v hv
        cases v with
        | jstr s => exact hstr s
        | jnum n => exact hnum n
        | jarr es =>
          rw [jsizeV_arr] at hv
          exact harr es ((ih (b - 1) (by omega)).2.1 es (by omega))
        | jobj fs =>
          rw [jsizeV_obj] at hv
          exact hobj fs ((ih (b - 1) (by omega)).2.2 fs (by omega))
      · intro vs hvs
        cases vs with
        | nil => exact hqnil
        | cons v vs =>
          rw [jsizeL_cons] at hvs
          have h1 := jsizeV_pos v
          have h2 := jsizeL_pos vs
          exact hqcons v vs ((ih (b - 1) (by omega)).1 v (by omega))
            ((ih (b - 1) (by omega)).2.1 vs (by omega))
      · intro fs hfs
        cases fs with
        | nil => exact hrnil
        | cons kv fs =>
          obtain ⟨k, v⟩ := kv
          rw [jsizeF_cons] at hfs
          have h1 := jsizeV_pos v
          have h2 := jsizeF_pos fs
          exact hrcons k v fs ((ih (b - 1) (by omega)).1 v (by omega))
            ((ih (b - 1) (by omega)).2.2 fs (by omega))
  exact ⟨fun v => (key (jsizeV v)).1 v le_rfl,
         fun vs => (key (jsizeL vs)).2.1 vs le_rfl,
         fun fs => (key (jsizeF fs)).2.2 fs le_rfl⟩

/-- A hexadecimal digit character, lowercase (as `JSON.stringify` emits). -/
def hexDigit (k : Nat) : Char :=
  if k < 10 then Char.ofNat (48 + k) else Char.ofNat (87 + k)

/-- `JSON.stringify`'s escaping of one string character. -/
def escJChar (c : Char) : List Char :=
  if c = '"' then ['\\', '"']
  else if c = '\\' then ['\\', '\\']
  else if c = '\n' then ['\\', 'n']
  else if c = '\r' then ['\\', 'r']
  else if c = '\t' then ['\\', 't']
  else if c = Char.ofNat 8 then ['\\', 'b']
  else if c = Char.ofNat 12 then ['\\', 'f']
  else if c.toNat < 32 then
    ['\\', 'u', '0', '0', hexDigit (c.toNat / 16), hexDigit (c.toNat % 16)]
  else [c]

def escJ : List Char → List Char
  | [] => []
  | c :: cs => escJChar c ++ escJ cs

/-- `n` spaces: the indentation gap of `JSON.stringify(·, null, 2)`. -/
def pad (n : Nat) : List Char := List.replicate n ' '

mutual
/-- `JSON.stringify(v, null, 2)` at current indentation `i`. -/
def renderV (i : Nat) : JVal → List Char
  | .jstr s => '"' :: escJ s ++ ['"']
  | .jnum n => natDigits n
  | .jarr [] => ['[', ']']
  | .jarr (v :: vs) =>
    '[' :: '\n' :: pad (i + 2) ++ renderV (i + 2) v ++ renderL (i + 2) vs ++
      '\n' :: pad i ++ [']']
  | .jobj [] => [lbrace, rbrace]
  | .jobj ((k, v) :: fs) =>
    lbrace :: '\n' :: pad (i + 2) ++ '"' :: escJ k ++ '"' :: ':' :: ' ' ::
      renderV (i + 2) v ++ renderF (i + 2) fs ++ '\n' :: pad i ++ [rbrace]
/-- Second and later array elements, each preceded by `,\n` and the gap. -/
def renderL (i : Nat) : List JVal → List Char
  | [] => []
  | v :: vs => ',' :: '\n' :: pad i ++ renderV i v ++ renderL i vs
/-- Second and later object fields, each preceded by `,\n` and the gap. -/
def renderF (i : Nat) : List (List Char × JVal) → List Char
  | [] => []
  | (k, v) :: fs =>
    ',' :: '\n' :: pad i ++ '"' :: escJ k ++ '"' :: ':' :: ' ' ::
      renderV i v ++ renderF i fs
end

theorem renderV_str (i : Nat) (s : List Char) :
    renderV i (.jstr s) = '"' :: escJ s ++ ['"'] := by
  rw [renderV.eq_def]

theorem renderV_num (i n : Nat) : renderV i (.jnum n) = natDigits n := by
  rw [renderV.eq_def]

theorem renderV_arr_nil (i : Nat) : renderV i (.jarr []) = ['[', ']'] := by
  rw [renderV.eq_def]

theorem renderV_arr_cons (i : Nat) (v : JVal) (vs : List JVal) :
    renderV i (.jarr (v :: vs)) =
      '[' :: '\n' :: pad (i + 2) ++ renderV (i + 2) v ++ renderL (i + 2) vs ++
        '\n' :: pad i ++ [']'] := by
  rw [renderV.eq_def]

theorem renderV_obj_nil (i : Nat) : renderV i (.jobj []) = [lbrace, rbrace] := by
  rw [renderV.eq_def]

theorem renderV_obj_cons (i : Nat) (k : List Char) (v : JVal)
    (fs : List (List Char × JVal)) :
    renderV i (.jobj ((k, v) :: fs)) =
      lbrace :: '\n' :: pad (i + 2) ++ '"' :: escJ k ++ '"' :: ':' :: ' ' ::
        renderV (i + 2) v ++ renderF (i + 2) fs ++ '\n' :: pad i ++ [rbrace] := by
  rw [renderV.eq_def]

theorem renderL_nil (i : Nat) : renderL i [] = [] := by
  rw [renderL.eq_def]

theorem renderL_cons (i : Nat) (v : JVal) (vs : List JVal) :
    renderL i (v :: vs) = ',' :: '\n' :: pad i ++ renderV i v ++ renderL i vs := by
  rw [renderL.eq_def]

theorem renderF_nil (i : Nat) : renderF i [] = [] := by
  rw [renderF.eq_def]

theorem renderF_cons (i : Nat) (k : List Char) (v : JVal)
    (fs : List (List Char × JVal)) :
    renderF i ((k, v) :: fs) =
      ',' :: '\n' :: pad i ++ '"' :: escJ k ++ '"' :: ':' :: ' ' ::
        renderV i v ++ renderF i fs := by
  rw [renderF.eq_def]

/-! ### A JSON parser (the `JSON.parse` side of the round trip) -/

def isWs (c : Char) : Bool := c = ' ' || c = '\n' || c = '\t' || c = '\r'

def skipWs : List Char → List Char
  | [] => []
  | c :: cs => if isWs c then skipWs cs else c :: cs

def isDigit (c : Char) : Bool := 48 ≤ c.toNat && c.toNat ≤ 57

def takeDigits : List Char → List Char × List Char
  | [] => ([], [])
  | c :: cs =>
    if isDigit c then
      let p := takeDigits cs
      (c :: p.1, p.2)
    else ([], c :: cs)

def digitsToNat (ds : List Char) : Nat :=
  ds.foldl (fun a c => 10 * a + (c.toNat - 48)) 0

def hexVal (c : Char) : Option Nat :=
  if 48 ≤ c.toNat ∧ c.toNat ≤ 57 then some (c.toNat - 48)
  else if 97 ≤ c.toNat ∧ c.toNat ≤ 102 then some (c.toNat - 87)
  else if 65 ≤ c.toNat ∧ c.toNat ≤ 70 then some (c.toNat - 55)
  else none

/-- The single-character escapes JSON.parse understands. -/
def decodeEsc (e : Char) : Option Char :=
  if e = '"' then some '"'
  else if e = '\\' then some '\\'
  else if e = '/' then some '/'
  else if e = 'n' then some '\n'
  else if e = 'r' then some '\r'
  else if e = 't' then some '\t'
  else if e = 'b' then some (Char.ofNat 8)
  else if e = 'f' then some (Char.ofNat 12)
  else none

/-- Four hex digits of a `\uXXXX` escape. -/
def hex4 (cs : List Char) : Option (Char × List Char) :=
  match cs with
  | h1 :: h2 :: h3 :: h4 :: cs3 =>
    match hexVal h1, hexVal h2, hexVal h3, hexVal h4 with
    | some a, some b, some c3, some d =>
      some (Char.ofNat (4096 * a + 256 * b + 16 * c3 + d), cs3)
    | _, _, _, _ => none
  | _ => none

/-- JSON string-body parser: consumes up to the closing quote, undoing the
escapes; `acc` holds the characters read so far, reversed; fuel-structural. -/
def parseStrAux : Nat → List Char → List Char → Option (List Char × List Char)
  | 0, _, _ => none
  | _ + 1, _, [] => none
  | fuel + 1, acc, c :: cs =>
    if c = '"' then some (acc.reverse, cs)
    else if c = '\\' then
      match cs with
      | [] => none
      | e :: cs2 =>
        if e = 'u' then
          match hex4 cs2 with
          | some p => parseStrAux fuel (p.1 :: acc) p.2
          | none => none
        else
          match decodeEsc e with
          | some u => parseStrAux fuel (u :: acc) cs2
          | none => none
    else parseStrAux fuel (c :: acc) cs

/-- Parse a JSON string body (after the opening quote): the input length
bounds the number of characters produced. -/
def parseStr (cs : List Char) : Option (List Char × List Char) :=
  parseStrAux (cs.length + 1) [] cs

mutual
/-- Fuel-indexed JSON value parser; consumes leading whitespace. -/
def parseVal : Nat → List Char → Option (JVal × List Char)
  | 0, _ => none
  | fuel + 1, cs =>
    match skipWs cs with
    | [] => none
    | c :: rest =>
      if c = '"' then
        match parseStr rest with
        | some (s, r) => some (.jstr s, r)
        | none => none
      else if c = '[' then
        match skipWs rest with
        | [] => none
        | d :: r2 =>
          if d = ']' then some (.jarr [], r2)
          else
            match parseItems fuel rest with
            | some (vs, r3) => some (.jarr vs, r3)
            | none => none
      else if c = lbrace then
        match skipWs rest with
        | [] => none
        | d :: r2 =>
          if d = rbrace then some (.jobj [], r2)
          else
            match parseFields fuel rest with
            | some (fs, r3) => some (.jobj fs, r3)
            | none => none
      else if isDigit c then
        some (.jnum (digitsToNat (takeDigits (c :: rest)).1),
          (takeDigits (c :: rest)).2)
      else none
/-- Elements of a non-empty array, up to and including the closing bracket. -/
def parseItems : Nat → List Char → Option (List JVal × List Char)
  | 0, _ => none
  | fuel + 1, cs =>
    match parseVal fuel cs with
    | none => none
    | some (v, r) =>
      match skipWs r with
      | [] => none
      | d :: r2 =>
        if d = ',' then
          match parseItems fuel r2 with
          | some (vs, r3) => some (v :: vs, r3)
          | none => none
        else if d = ']' then some ([v], r2)
        else none
/-- Fields of a non-empty object, up to and including the closing brace. -/
def parseFields : Nat → List Char → Option (List (List Char × JVal) × List Char)
  | 0, _ => none
  | fuel + 1, cs =>
    match skipWs cs with
    | [] => none
    | c :: rest =>
      if c = '"' then
        match parseStr rest with
        | none => none
        | some (k, r) =>
          match skipWs r with
          | [] => none
          | d :: r2 =>
            if d = ':' then
              match parseVal fuel r2 with
              | none => none
              | some (v, r3) =>
                match skipWs r3 with
                | [] => none
                | e :: r4 =>
                  if e = ',' then
                    match parseFields fuel r4 with
                    | some (fs, r5) => some ((k, v) :: fs, r5)
                    | none => none
                  else if e = rbrace then some ([(k, v)], r4)
                  else none
            else none
      else none
end

/-- `JSON.parse` on a whole document: one value and nothing but trailing
whitespace. -/
def parseJson (fuel : Nat) (s : String) : Option JVal :=
  match parseVal fuel s.data with
  | some (v, r) => if skipWs r = [] then some v else none
  | none => none

/-! ### Parser support lemmas -/

theorem parseVal_succ (fuel : Nat) (cs : List Char) :
    parseVal (fuel + 1) cs =
      match skipWs cs with
      | [] => none
      | c :: rest =>
        if c = '"' then
          match parseStr rest with
          | some (s, r) => some (.jstr s, r)
          | none => none
        else if c = '[' then
          match skipWs rest with
          | [] => none
          | d :: r2 =>
            if d = ']' then some (.jarr [], r2)
            else
              match parseItems fuel rest with
              | some (vs, r3) => some (.jarr vs, r3)
              | none => none
        else if c = lbrace then
          match skipWs rest with
          | [] => none
          | d :: r2 =>
            if d = rbrace then some (.jobj [], r2)
            else
              match parseFields fuel rest with
              | some (fs, r3) => some (.jobj fs, r3)
              | none => none
        else if isDigit c then
          some (.jnum (digitsToNat (takeDigits (c :: rest)).1),
            (takeDigits (c :: rest)).2)
        else none := by
  rw [parseVal.eq_def]

theorem parseItems_succ (fuel : Nat) (cs : List Char) :
    parseItems (fuel + 1) cs =
      match parseVal fuel cs with
      | none => none
      | some (v, r) =>
        match skipWs r with
        | [] => none
        | d :: r2 =>
          if d = ',' then
            match parseItems fuel r2 with
            | some (vs, r3) => some (v :: vs, r3)
            | none => none
          else if d = ']' then some ([v], r2)
          else none := by
  rw [parseItems.eq_def]

theorem parseFields_succ (fuel : Nat) (cs : List Char) :
    parseFields (fuel + 1) cs =
      match skipWs cs with
      | [] => none
      | c :: rest =>
        if c = '"' then
          match parseStr rest with
          | none => none
          | some (k, r) =>
            match skipWs r with
            | [] => none
            | d :: r2 =>
              if d = ':' then
                match parseVal fuel r2 with
                | none => none
                | some (v, r3) =>
                  match skipWs r3 with
                  | [] => none
                  | e :: r4 =>
                    if e = ',' then
                      match parseFields fuel r4 with
                      | some (fs, r5) => some ((k, v) :: fs, r5)
                      | none => none
                    else if e = rbrace then some ([(k, v)], r4)
                    else none
              else none
        else none := by
  rw [parseFields.eq_def]

theorem skipWs_cons_of_ws (c : Char) (x : List Char) (h : isWs c = true) :
    skipWs (c :: x) = skipWs x := by
  simp [skipWs, h]

theorem skipWs_cons_of_not (c : Char) (x : List Char) (h : isWs c = false) :
    skipWs (c :: x) = c :: x := by
  simp [skipWs, h]

theorem skipWs_append_ws (w : List Char) (hw : ∀ c ∈ w, isWs c = true) :
    ∀ x, skipWs (w ++ x) = skipWs x := by
  induction w with
  | nil => intro x; rfl
  | cons c t ih =>
    intro x
    rw [List.cons_append, skipWs_cons_of_ws c _ (hw c (List.mem_cons_self _ _))]
    exact ih (fun d hd => hw d (List.mem_cons_of_mem _ hd)) x

theorem pad_ws (n : Nat) : ∀ c ∈ pad n, isWs c = true := by
  intro c hc
  have : c = ' ' := List.eq_of_mem_replicate hc
  subst this
  decide

theorem skipWs_nl_pad (n : Nat) (x : List Char) :
    skipWs ('\n' :: pad n ++ x) = skipWs x := by
  rw [List.cons_append, skipWs_cons_of_ws '\n' _ (by decide)]
  exact skipWs_append_ws (pad n) (pad_ws n) x

theorem parseVal_congr_skip (fuel : Nat) (cs cs' : List Char)
    (h : skipWs cs = skipWs cs') : parseVal fuel cs = parseVal fuel cs' := by
  cases fuel with
  | zero => rfl
  | succ fuel => rw [parseVal_succ, parseVal_succ, h]

theorem parseFields_congr_skip (fuel : Nat) (cs cs' : List Char)
    (h : skipWs cs = skipWs cs') : parseFields fuel cs = parseFields fuel cs' := by
  cases fuel with
  | zero => rfl
  | succ fuel => rw [parseFields_succ, parseFields_succ, h]

/-! ### Decimal digits round-trip -/

theorem toNat_digitChar (k : Nat) (hk : k < 10) :
    (Char.ofNat (48 + k)).toNat = 48 + k := by
  interval_cases k <;> decide

theorem natDigitsGo_append : ∀ (fuel n : Nat) (acc : List Char),
    natDigitsGo fuel n acc = natDigitsGo fuel n [] ++ acc := by
  intro fuel
  induction fuel with
  | zero => intro n acc; rfl
  | succ fuel ih =>
    intro n acc
    by_cases h : n < 10
    · simp [natDigitsGo, h]
    · simp only [natDigitsGo, if_neg h]
      rw [ih (n / 10) (Char.ofNat (48 + n % 10) :: acc),
          ih (n / 10) [Char.ofNat (48 + n % 10)]]
      simp

theorem natDigitsGo_foldl : ∀ (fuel n : Nat), n < fuel →
    (natDigitsGo fuel n []).foldl (fun a c => 10 * a + (c.toNat - 48)) 0 = n := by
  intro fuel
  induction fuel with
  | zero => intro n h; omega
  | succ fuel ih =>
    intro n h
    by_cases h10 : n < 10
    · simp [natDigitsGo, h10, toNat_digitChar (n % 10) (by omega)]
    · simp only [natDigitsGo, if_neg h10]
      rw [natDigitsGo_append, List.foldl_append,
          ih (n / 10) (by omega)]
      simp [toNat_digitChar (n % 10) (by omega)]
      omega

theorem digitsToNat_natDigits (n : Nat) : digitsToNat (natDigits n) = n :=
  natDigitsGo_foldl (n + 1) n (by omega)

theorem natDigits_all_digits (n : Nat) : ∀ c ∈ natDigits n, isDigit c = true := by
  intro c hc
  rcases natDigitsGo_mem (n + 1) n [] c hc with h | ⟨k, hk, h⟩
  · simp at h
  · subst h
    interval_cases k <;> decide

theorem natDigits_ne_nil (n : Nat) : natDigits n ≠ [] := by
  unfold natDigits
  by_cases h : n < 10
  · simp [natDigitsGo, h]
  · simp only [natDigitsGo, if_neg h]
    rw [natDigitsGo_append]
    simp

/-- The continuation does not begin with a digit. -/
def headNotDigit : List Char → Bool
  | [] => true
  | c :: _ => !isDigit c

theorem takeDigits_split (ds : List Char) (hds : ∀ c ∈ ds, isDigit c = true) :
    ∀ rest, headNotDigit rest = true → takeDigits (ds ++ rest) = (ds, rest) := by
  induction ds with
  | nil =>
    intro rest hr
    cases rest with
    | nil => rfl
    | cons c t =>
      simp only [headNotDigit, Bool.not_eq_true'] at hr
      simp [takeDigits, hr]
  | cons c t ih =>
    intro rest hr
    have hc := hds c (List.mem_cons_self _ _)
    simp only [List.cons_append, takeDigits, hc, if_pos, List.append_eq]
    rw [ih (fun d hd => hds d (List.mem_cons_of_mem _ hd)) rest hr]

/-! ### String escaping round-trip -/

theorem char_ofNat_toNat (c : Char) (h : c.toNat < 32) : Char.ofNat c.toNat = c := by
  unfold Char.ofNat
  split
  · exact Char.eq_of_val_eq (by simp [Char.toNat]; rfl)
  · rename_i hv
    exfalso
    exact hv (Or.inl (by simp [Char.toNat] at h ⊢; omega))

theorem hexVal_hexDigit (k : Nat) (hk : k < 16) : hexVal (hexDigit k) = some k := by
  interval_cases k <;> decide

theorem parseStrAux_escJ : ∀ (s : List Char) (fuel : Nat) (acc rest : List Char),
    s.length < fuel →
    parseStrAux fuel acc (escJ s ++ '"' :: rest) = some (acc.reverse ++ s, rest) := by
  intro s
  induction s with
  | nil =>
    intro fuel acc rest h
    cases fuel with
    | zero => omega
    | succ f => simp [escJ, parseStrAux]
  | cons c s ih =>
    intro fuel acc rest h
    cases fuel with
    | zero => omega
    | succ f =>
      have hf : s.length < f := by simpa using h
      have ihf := ih f
      rw [escJ, List.append_assoc]
      by_cases h1 : c = '"'
      · subst h1
        simp [escJChar, parseStrAux, decodeEsc, ihf _ _ hf]
      · by_cases h2 : c = '\\'
        · subst h2
          simp [escJChar, parseStrAux, decodeEsc, ihf _ _ hf]
        · by_cases h3 : c = '\n'
          · subst h3
            simp [escJChar, parseStrAux, decodeEsc, ihf _ _ hf]
          · by_cases h4 : c = '\r'
            · subst h4
              simp [escJChar, parseStrAux, decodeEsc, ihf _ _ hf]
            · by_cases h5 : c = '\t'
              · subst h5
                simp [escJChar, parseStrAux, decodeEsc, ihf _ _ hf]
              · by_cases h6 : c = Char.ofNat 8
                · subst h6
                  simp [escJChar, parseStrAux, decodeEsc, ihf _ _ hf]
                · by_cases h7 : c = Char.ofNat 12
                  · subst h7
                    simp [escJChar, parseStrAux, decodeEsc, ihf _ _ hf]
                  · by_cases h8 : c.toNat < 32
                    · have h0 : hexVal '0' = some 0 := by decide
                      simp [escJChar, h1, h2, h3, h4, h5, h6, h7, h8, parseStrAux,
                            hex4, h0,
                            hexVal_hexDigit (c.toNat / 16) (by omega),
                            hexVal_hexDigit (c.toNat % 16) (by omega),
                            Nat.div_add_mod c.toNat 16,
                            char_ofNat_toNat c h8, ihf _ _ hf]
                    · simp [escJChar, h1, h2, h3, h4, h5, h6, h7, h8, parseStrAux,
                            ihf _ _ hf]

theorem escJChar_len (c : Char) : 1 ≤ (escJChar c).length := by
  unfold escJChar
  split
  · simp
  · split
    · simp
    · split
      · simp
      · split
        · simp
        · split
          · simp
          · split
            · simp
            · split
              · simp
              · split
                · simp
                · simp

theorem escJ_len (s : List Char) : s.length ≤ (escJ s).length := by
  induction s with
  | nil => simp [escJ]
  | cons c t ih =>
    rw [escJ, List.length_append, List.length_cons]
    have := escJChar_len c
    omega

theorem parseStr_escJ (s rest : List Char) :
    parseStr (escJ s ++ '"' :: rest) = some (s, rest) := by
  unfold parseStr
  rw [parseStrAux_escJ s _ [] rest
    (by rw [List.length_append]; have := escJ_len s; simp; omega)]
  simp

theorem digit_not_ws (c : Char) (h : isDigit c = true) : isWs c = false := by
  by_contra hw
  rw [Bool.not_eq_false] at hw
  simp only [isWs, Bool.or_eq_true, decide_eq_true_eq] at hw
  rcases hw with ((rfl | rfl) | rfl) | rfl <;> simp [isDigit] at h

theorem digit_ne_quote (c : Char) (h : isDigit c = true) : c ≠ '"' := by
  intro heq; subst heq; simp [isDigit] at h

theorem digit_ne_lbracket (c : Char) (h : isDigit c = true) : c ≠ '[' := by
  intro heq; subst heq; simp [isDigit] at h

theorem digit_ne_lbrace (c : Char) (h : isDigit c = true) : c ≠ lbrace := by
  intro heq; subst heq; simp [isDigit, lbrace] at h

theorem digit_ne_rbracket (c : Char) (h : isDigit c = true) : c ≠ ']' := by
  intro heq; subst heq; simp [isDigit] at h

theorem digit_ne_rbrace (c : Char) (h : isDigit c = true) : c ≠ rbrace := by
  intro heq; subst heq; simp [isDigit, rbrace] at h

/-- Every rendered value starts with a non-whitespace character that is
neither a closing bracket nor a closing brace. -/
theorem renderV_head (i : Nat) (v : JVal) :
    ∃ c t, renderV i v = c :: t ∧ isWs c = false ∧ c ≠ ']' ∧ c ≠ rbrace := by
  cases v with
  | jstr s =>
    rw [renderV_str]
    exact ⟨'"', _, rfl, by decide, by decide, by decide⟩
  | jnum n =>
    rw [renderV_num]
    obtain ⟨d, ds, hnd⟩ : ∃ d ds, natDigits n = d :: ds := by
      cases h : natDigits n with
      | nil => exact absurd h (natDigits_ne_nil n)
      | cons d ds => exact ⟨d, ds, rfl⟩
    have hd := natDigits_all_digits n d (by rw [hnd]; exact List.mem_cons_self _ _)
    exact ⟨d, ds, hnd, digit_not_ws d hd, digit_ne_rbracket d hd, digit_ne_rbrace d hd⟩
  | jarr es =>
    cases es with
    | nil =>
      rw [renderV_arr_nil]
      exact ⟨'[', _, rfl, by decide, by decide, by decide⟩
    | cons v vs =>
      rw [renderV_arr_cons]
      exact ⟨'[', _, rfl, by decide, by decide, by decide⟩
  | jobj fs =>
    cases fs with
    | nil =>
      rw [renderV_obj_nil]
      exact ⟨lbrace, _, rfl, by decide, by decide, by decide⟩
    | cons kv fs =>
      obtain ⟨k, v⟩ := kv
      rw [renderV_obj_cons]
      exact ⟨lbrace, _, rfl, by decide, by decide, by decide⟩

/-- The value `v` parses back from its rendering, whatever indentation it was
rendered at and whatever non-digit continuation follows. -/
def ParsesBack (v : JVal) : Prop :=
  ∀ (i fuel : Nat) (rest : List Char), jsizeV v < fuel → headNotDigit rest = true →
    parseVal fuel (renderV i v ++ rest) = some (v, rest)

theorem skipWs_nl_pad2 (n : Nat) (x : List Char) :
    skipWs ('\n' :: (pad n ++ x)) = skipWs x := by
  rw [← List.cons_append]
  exact skipWs_nl_pad n x

theorem items_spec : ∀ (vs : List JVal), (∀ w ∈ vs, ParsesBack w) →
    ∀ (v : JVal), ParsesBack v →
    ∀ (j i fuel : Nat) (rest : List Char), jsizeV v + jsizeL vs < fuel →
    parseItems fuel
      ('\n' :: pad j ++ renderV j v ++ renderL j vs ++ '\n' :: pad i ++ ']' :: rest) =
      some (v :: vs, rest) := by
  intro vs
  induction vs with
  | nil =>
    intro hvs v hv j i fuel rest hfuel
    have h1 := jsizeL_pos ([] : List JVal)
    cases fuel with
    | zero => omega
    | succ f =>
      rw [parseItems_succ, renderL_nil]
      simp only [List.append_assoc, List.cons_append, List.nil_append, List.append_nil]
      rw [parseVal_congr_skip f _ _ (skipWs_nl_pad2 j _)]
      rw [hv j f _ (by omega) (by rfl)]
      have hsk : skipWs ('\n' :: (pad i ++ ']' :: rest)) = ']' :: rest := by
        rw [skipWs_nl_pad2, skipWs_cons_of_not _ _ (by decide)]
      simp [hsk]
  | cons v2 vs2 ih =>
    intro hvs v hv j i fuel rest hfuel
    have hv2 : ParsesBack v2 := hvs v2 (List.mem_cons_self _ _)
    have hvs2 : ∀ w ∈ vs2, ParsesBack w := fun w hw => hvs w (List.mem_cons_of_mem _ hw)
    rw [jsizeL_cons] at hfuel
    have hp2 := jsizeV_pos v2
    have hl2 := jsizeL_pos vs2
    have hpv := jsizeV_pos v
    cases fuel with
    | zero => omega
    | succ f =>
      rw [parseItems_succ, renderL_cons]
      simp only [List.append_assoc, List.cons_append, List.nil_append]
      rw [parseVal_congr_skip f _ _ (skipWs_nl_pad2 j _)]
      rw [hv j f _ (by omega) (by rfl)]
      have hsk : ∀ x : List Char, skipWs (',' :: x) = ',' :: x :=
        fun x => skipWs_cons_of_not _ _ (by decide)
      simp only [hsk]
      have ih2 := ih hvs2 v2 hv2 j i f rest (by omega)
      simp only [List.append_assoc, List.cons_append, List.nil_append] at ih2
      simp [ih2]

theorem fields_spec : ∀ (fs : List (List Char × JVal)), (∀ kv ∈ fs, ParsesBack kv.2) →
    ∀ (k : List Char) (v : JVal), ParsesBack v →
    ∀ (j i fuel : Nat) (rest : List Char), jsizeV v + jsizeF fs < fuel →
    parseFields fuel
      ('\n' :: pad j ++ '"' :: escJ k ++ '"' :: ':' :: ' ' :: renderV j v ++
        renderF j fs ++ '\n' :: pad i ++ rbrace :: rest) =
      some ((k, v) :: fs, rest) := by
  intro fs
  induction fs with
  | nil =>
    intro hfs k v hv j i fuel rest hfuel
    have h1 := jsizeF_pos ([] : List (List Char × JVal))
    cases fuel with
    | zero => omega
    | succ f =>
      rw [parseFields_succ, renderF_nil]
      simp only [List.append_assoc, List.cons_append, List.nil_append, List.append_nil]
      have hsk0 : skipWs ('\n' :: (pad j ++ '"' :: (escJ k ++ '"' :: ':' :: ' ' ::
          (renderV j v ++ '\n' :: (pad i ++ rbrace :: rest))))) =
          '"' :: (escJ k ++ '"' :: ':' :: ' ' ::
            (renderV j v ++ '\n' :: (pad i ++ rbrace :: rest))) := by
        rw [skipWs_nl_pad2, skipWs_cons_of_not _ _ (by decide)]
      rw [hsk0]
      simp only [if_pos rfl]
      have hstr := parseStr_escJ k (':' :: ' ' ::
        (renderV j v ++ '\n' :: (pad i ++ rbrace :: rest)))
      simp only [List.append_assoc, List.cons_append, List.nil_append] at hstr
      rw [hstr]
      have hsk1 : ∀ x : List Char, skipWs (':' :: x) = ':' :: x :=
        fun x => skipWs_cons_of_not _ _ (by decide)
      simp only [hsk1, if_pos rfl]
      rw [parseVal_congr_skip f _ _ (skipWs_cons_of_ws ' ' _ (by decide))]
      rw [hv j f _ (by omega) (by rfl)]
      have hsk2 : skipWs ('\n' :: (pad i ++ rbrace :: rest)) = rbrace :: rest := by
        rw [skipWs_nl_pad2, skipWs_cons_of_not _ _ (by decide)]
      have hne : ¬(rbrace = ',') := by decide
      simp [hsk2, hne]
  | cons kv2 fs2 ih =>
    obtain ⟨k2, v2⟩ := kv2
    intro hfs k v hv j i fuel rest hfuel
    have hv2 : ParsesBack v2 := hfs (k2, v2) (List.mem_cons_self _ _)
    have hfs2 : ∀ kv ∈ fs2, ParsesBack kv.2 :=
      fun kv hkv => hfs kv (List.mem_cons_of_mem _ hkv)
    rw [jsizeF_cons] at hfuel
    have hp2 := jsizeV_pos v2
    have hl2 := jsizeF_pos fs2
    have hpv := jsizeV_pos v
    cases fuel with
    | zero => omega
    | succ f =>
      rw [parseFields_succ, renderF_cons]
      simp only [List.append_assoc, List.cons_append, List.nil_append]
      have hsk0 : skipWs ('\n' :: (pad j ++ '"' :: (escJ k ++ '"' :: ':' :: ' ' ::
          (renderV j v ++ ',' :: '\n' :: (pad j ++ '"' :: (escJ k2 ++ '"' :: ':' :: ' ' ::
            (renderV j v2 ++ (renderF j fs2 ++ '\n' :: (pad i ++ rbrace :: rest))))))))) =
          '"' :: (escJ k ++ '"' :: ':' :: ' ' ::
            (renderV j v ++ ',' :: '\n' :: (pad j ++ '"' :: (escJ k2 ++ '"' :: ':' :: ' ' ::
              (renderV j v2 ++ (renderF j fs2 ++ '\n' :: (pad i ++ rbrace :: rest))))))) := by
        rw [skipWs_nl_pad2, skipWs_cons_of_not _ _ (by decide)]
      rw [hsk0]
      simp only [if_pos rfl]
      have hstr := parseStr_escJ k (':' :: ' ' ::
        (renderV j v ++ ',' :: '\n' :: (pad j ++ '"' :: (escJ k2 ++ '"' :: ':' :: ' ' ::
          (renderV j v2 ++ (renderF j fs2 ++ '\n' :: (pad i ++ rbrace :: rest)))))))
      simp only [List.append_assoc, List.cons_append, List.nil_append] at hstr
      rw [hstr]
      have hsk1 : ∀ x : List Char, skipWs (':' :: x) = ':' :: x :=
        fun x => skipWs_cons_of_not _ _ (by decide)
      simp only [hsk1, if_pos rfl]
      rw [parseVal_congr_skip f _ _ (skipWs_cons_of_ws ' ' _ (by decide))]
      rw [hv j f _ (by omega) (by rfl)]
      have hsk2 : ∀ x : List Char, skipWs (',' :: x) = ',' :: x :=
        fun x => skipWs_cons_of_not _ _ (by decide)
      simp only [hsk2]
      have ih2 := ih hfs2 k2 v2 hv2 j i f rest (by omega)
      simp only [List.append_assoc, List.cons_append, List.nil_append] at ih2
      simp [ih2]

/-- Every rendered JSON value parses back to itself: printer–parser
round-trip for `JSON.stringify(·, null, 2)` followed by `JSON.parse`. -/
theorem parsesBack_all : ∀ v, ParsesBack v := by
  refine (jval_ind ParsesBack (fun vs => ∀ w ∈ vs, ParsesBack w)
    (fun fs => ∀ kv ∈ fs, ParsesBack kv.2) ?_ ?_ ?_ ?_ ?_ ?_ ?_ ?_).1
  · intro s i fuel rest hf hr
    cases fuel with
    | zero => exact absurd hf (by have := jsizeV_pos (JVal.jstr s); omega)
    | succ f =>
      rw [renderV_str, parseVal_succ]
      simp only [List.append_assoc, List.cons_append, List.nil_append]
      rw [skipWs_cons_of_not _ _ (by decide)]
      simp [parseStr_escJ]
  · intro n i fuel rest hf hr
    cases fuel with
    | zero => exact absurd hf (by have := jsizeV_pos (JVal.jnum n); omega)
    | succ f =>
      rw [renderV_num, parseVal_succ]
      obtain ⟨d, ds, hnd⟩ : ∃ d ds, natDigits n = d :: ds := by
        cases h : natDigits n with
        | nil => exact absurd h (natDigits_ne_nil n)
        | cons d ds => exact ⟨d, ds, rfl⟩
      have hd : isDigit d = true :=
        natDigits_all_digits n d (by rw [hnd]; exact List.mem_cons_self _ _)
      rw [hnd]
      simp only [List.cons_append]
      rw [skipWs_cons_of_not _ _ (digit_not_ws d hd)]
      have h1 : ¬(d = '"') := digit_ne_quote d hd
      have h2 : ¬(d = '[') := digit_ne_lbracket d hd
      have h3 : ¬(d = lbrace) := digit_ne_lbrace d hd
      have htd := takeDigits_split (d :: ds)
        (by rw [← hnd]; exact natDigits_all_digits n) rest hr
      simp only [List.cons_append] at htd
      have hval : digitsToNat (d :: ds) = n := by
        rw [← hnd]; exact digitsToNat_natDigits n
      simp [h1, h2, h3, hd, htd, hval]
  · intro es hq i fuel rest hf hr
    cases es with
    | nil =>
      cases fuel with
      | zero => exact absurd hf (by have := jsizeV_pos (JVal.jarr []); omega)
      | succ f =>
        rw [renderV_arr_nil, parseVal_succ]
        simp only [List.cons_append, List.nil_append]
        rw [skipWs_cons_of_not _ _ (by decide)]
        have s1 : skipWs (']' :: rest) = ']' :: rest := skipWs_cons_of_not _ _ (by decide)
        simp [s1]
    | cons v vs =>
      cases fuel with
      | zero => exact absurd hf (by have := jsizeV_pos (JVal.jarr (v :: vs)); omega)
      | succ f =>
        rw [jsizeV_arr, jsizeL_cons] at hf
        rw [renderV_arr_cons, parseVal_succ]
        simp only [List.append_assoc, List.cons_append, List.nil_append]
        rw [skipWs_cons_of_not _ _ (by decide)]
        obtain ⟨c, t, hct, hcw, hc1, hc2⟩ := renderV_head (i + 2) v
        have hskR : skipWs ('\n' :: (pad (i + 2) ++ (renderV (i + 2) v ++
            (renderL (i + 2) vs ++ '\n' :: (pad i ++ ']' :: rest))))) =
            c :: (t ++ (renderL (i + 2) vs ++ '\n' :: (pad i ++ ']' :: rest))) := by
          rw [skipWs_nl_pad2, hct, List.cons_append,
              skipWs_cons_of_not _ _ hcw]
        have hitems := items_spec vs (fun w hw => hq w (List.mem_cons_of_mem _ hw))
          v (hq v (List.mem_cons_self _ _)) (i + 2) i f rest (by omega)
        simp only [List.append_assoc, List.cons_append, List.nil_append] at hitems
        simp [hskR, hc1, hitems]
  · intro fs hq i fuel rest hf hr
    cases fs with
    | nil =>
      cases fuel with
      | zero => exact absurd hf (by have := jsizeV_pos (JVal.jobj []); omega)
      | succ f =>
        rw [renderV_obj_nil, parseVal_succ]
        simp only [List.cons_append, List.nil_append]
        rw [skipWs_cons_of_not _ _ (by decide)]
        have s1 : skipWs (rbrace :: rest) = rbrace :: rest :=
          skipWs_cons_of_not _ _ (by decide)
        have hn1 : ¬(lbrace = '"') := by decide
        have hn2 : ¬(lbrace = '[') := by decide
        have hn3 : ¬(lbrace = ']') := by decide
        have hn4 : ¬(rbrace = ']') := by decide
        simp [s1, hn1, hn2, hn4]
    | cons kv fs2 =>
      obtain ⟨k, v⟩ := kv
      cases fuel with
      | zero => exact absurd hf (by have := jsizeV_pos (JVal.jobj ((k, v) :: fs2)); omega)
      | succ f =>
        rw [jsizeV_obj, jsizeF_cons] at hf
        rw [renderV_obj_cons, parseVal_succ]
        simp only [List.append_assoc, List.cons_append, List.nil_append]
        rw [skipWs_cons_of_not _ _ (by decide)]
        have hskR : skipWs ('\n' :: (pad (i + 2) ++ '"' :: (escJ k ++ '"' :: ':' :: ' ' ::
            (renderV (i + 2) v ++ (renderF (i + 2) fs2 ++ '\n' ::
              (pad i ++ rbrace :: rest)))))) =
            '"' :: (escJ k ++ '"' :: ':' :: ' ' ::
            (renderV (i + 2) v ++ (renderF (i + 2) fs2 ++ '\n' ::
              (pad i ++ rbrace :: rest)))) := by
          rw [skipWs_nl_pad2, skipWs_cons_of_not _ _ (by decide)]
        have hfields := fields_spec fs2 (fun kv hkv => hq kv (List.mem_cons_of_mem _ hkv))
          k v (hq (k, v) (List.mem_cons_self _ _)) (i + 2) i f rest (by omega)
        simp only [List.append_assoc, List.cons_append, List.nil_append] at hfields
        have hn1 : ¬(lbrace = '"') := by decide
        have hn2 : ¬(lbrace = '[') := by decide
        have hn3 : ¬(('"' : Char) = rbrace) := by decide
        simp [hskR, hn1, hn2, hn3, hfields]
  · intro w hw
    exact absurd hw (List.not_mem_nil w)
  · intro v vs hv hvs w hw
    rcases List.mem_cons.mp hw with rfl | hw2
    · exact hv
    · exact hvs w hw2
  · intro kv hkv
    exact absurd hkv (List.not_mem_nil kv)
  · intro k v fs hv hfs kv hkv
    rcases List.mem_cons.mp hkv with rfl | hkv2
    · exact hv
    · exact hfs kv hkv2

/-! ### Encoding the backup envelope as a JSON value -/

/-- A present optional field renders as a one-field segment, an absent one
as nothing (`JSON.stringify` omits `undefined`-valued fields). -/
def optField (k : List Char) : Option JVal → List (List Char × JVal)
  | some v => [(k, v)]
  | none => []

mutual
/-- The JSON object `JSON.stringify` sees for one bookmark node: fields in
interface order, fields holding `undefined` omitted. -/
def encodeNode : BookmarkNode → JVal
  | .mk i t u da dgm ch pid =>
    .jobj (
      [("id".data, .jstr i.data), ("title".data, .jstr t.data)] ++
      optField "url".data (u.map fun s => .jstr s.data) ++
      optField "dateAdded".data (da.map JVal.jnum) ++
      optField "dateGroupModified".data (dgm.map JVal.jnum) ++
      (match ch with
       | some l => [("children".data, JVal.jarr (encodeForest l))]
       | none => []) ++
      optField "parentId".data (pid.map fun s => .jstr s.data))
def encodeForest : List BookmarkNode → List JVal
  | [] => []
  | n :: ns => encodeNode n :: encodeForest ns
end

theorem encodeNode_eq (i t : String) (u : Option String) (da dgm : Option Nat)
    (ch : Option (List BookmarkNode)) (pid : Option String) :
    encodeNode (.mk i t u da dgm ch pid) =
      .jobj (
        [("id".data, .jstr i.data), ("title".data, .jstr t.data)] ++
        optField "url".data (u.map fun s => .jstr s.data) ++
        optField "dateAdded".data (da.map JVal.jnum) ++
        optField "dateGroupModified".data (dgm.map JVal.jnum) ++
        (match ch with
         | some l => [("children".data, JVal.jarr (encodeForest l))]
         | none => []) ++
        optField "parentId".data (pid.map fun s => .jstr s.data)) := by
  rw [encodeNode.eq_def]

theorem encodeForest_nil : encodeForest [] = [] := by
  rw [encodeForest.eq_def]

theorem encodeForest_cons (n : BookmarkNode) (ns : List BookmarkNode) :
    encodeForest (n :: ns) = encodeNode n :: encodeForest ns := by
  rw [encodeForest.eq_def]

/-- The JSON object `JSON.stringify` sees for the whole envelope (object
literal order from `createBackupData`). -/
def encodeData (d : BackupData) : JVal :=
  .jobj [("version".data, .jstr d.version.data),
         ("exportDate".data, .jstr d.exportDate.data),
         ("browserInfo".data, .jstr d.browserInfo.data),
         ("totalBookmarks".data, .jnum d.totalBookmarks),
         ("bookmarks".data, .jarr (encodeForest d.bookmarks))]

/-- `exportAsJSON` from `src/lib/bookmarks`: `JSON.stringify(data, null, 2)`. -/
def exportAsJSON (data : BackupData) : String := ⟨renderV 0 (encodeData data)⟩

/-! ### Decoding (the inverse reading used to state structural identity) -/

def asObj : JVal → Option (List (List Char × JVal))
  | .jobj fs => some fs
  | _ => none

def asStr : JVal → Option (List Char)
  | .jstr s => some s
  | _ => none

def asNum : JVal → Option Nat
  | .jnum n => some n
  | _ => none

def asArr : JVal → Option (List JVal)
  | .jarr es => some es
  | _ => none

/-- Require the next field to have key `k` and a string value. -/
def takeStrField (k : List Char) (fs : List (List Char × JVal)) :
    Option (List Char × List (List Char × JVal)) :=
  match fs with
  | kv :: fs2 => if kv.1 = k then (asStr kv.2).map (fun s => (s, fs2)) else none
  | [] => none

/-- Read an optional string field with key `k` at the current position. -/
def optStrField (k : List Char) (fs : List (List Char × JVal)) :
    Option (List Char) × List (List Char × JVal) :=
  match fs with
  | kv :: fs2 =>
    if kv.1 = k then
      match asStr kv.2 with
      | some s => (some s, fs2)
      | none => (none, fs)
    else (none, fs)
  | [] => (none, [])

/-- Read an optional numeric field with key `k` at the current position. -/
def optNumField (k : List Char) (fs : List (List Char × JVal)) :
    Option Nat × List (List Char × JVal) :=
  match fs with
  | kv :: fs2 =>
    if kv.1 = k then
      match asNum kv.2 with
      | some n => (some n, fs2)
      | none => (none, fs)
    else (none, fs)
  | [] => (none, [])

/-- Read an optional array field with key `k` at the current position. -/
def optArrField (k : List Char) (fs : List (List Char × JVal)) :
    Option (List JVal) × List (List Char × JVal) :=
  match fs with
  | kv :: fs2 =>
    if kv.1 = k then
      match asArr kv.2 with
      | some l => (some l, fs2)
      | none => (none, fs)
    else (none, fs)
  | [] => (none, [])

mutual
/-- Read one bookmark node back from its JSON object (fuel-structural). -/
def decodeNodeF : Nat → JVal → Option BookmarkNode
  | 0, _ => none
  | fuel + 1, v =>
    (asObj v).bind fun fs =>
    (takeStrField "id".data fs).bind fun p1 =>
    (takeStrField "title".data p1.2).bind fun p2 =>
    let r1 := optStrField "url".data p2.2
    let r2 := optNumField "dateAdded".data r1.2
    let r3 := optNumField "dateGroupModified".data r2.2
    let r4 := optArrField "children".data r3.2
    match r4.1 with
    | some l =>
      (decodeForestF fuel l).bind fun bs =>
      let r5 := optStrField "parentId".data r4.2
      if r5.2.isEmpty then
        some (.mk ⟨p1.1⟩ ⟨p2.1⟩ (r1.1.map fun s => ⟨s⟩) r2.1 r3.1 (some bs)
          (r5.1.map fun s => ⟨s⟩))
      else none
    | none =>
      let r5 := optStrField "parentId".data r4.2
      if r5.2.isEmpty then
        some (.mk ⟨p1.1⟩ ⟨p2.1⟩ (r1.1.map fun s => ⟨s⟩) r2.1 r3.1 none
          (r5.1.map fun s => ⟨s⟩))
      else none
def decodeForestF : Nat → List JVal → Option (List BookmarkNode)
  | 0, _ => none
  | _ + 1, [] => some []
  | fuel + 1, v :: vs =>
    (decodeNodeF fuel v).bind fun b =>
    (decodeForestF fuel vs).map fun bs => b :: bs
end

/-- Read the whole envelope back from its JSON object. -/
def decodeData (fuel : Nat) (v : JVal) : Option BackupData :=
  (asObj v).bind fun fs =>
  (takeStrField "version".data fs).bind fun p1 =>
  (takeStrField "exportDate".data p1.2).bind fun p2 =>
  (takeStrField "browserInfo".data p2.2).bind fun p3 =>
  match p3.2 with
  | (k4, .jnum tb) :: fs4 =>
    if k4 = "totalBookmarks".data then
      match fs4 with
      | [(k5, .jarr bs)] =>
        if k5 = "bookmarks".data then
          (decodeForestF fuel bs).map fun l => ⟨⟨p1.1⟩, ⟨p2.1⟩, ⟨p3.1⟩, tb, l⟩
        else none
      | _ => none
    else none
  | _ => none

theorem decodeForestF_nil2 (f : Nat) : decodeForestF (f + 1) [] = some [] := by
  rw [decodeForestF.eq_def]

theorem decodeForestF_cons2 (f : Nat) (v : JVal) (vs : List JVal) :
    decodeForestF (f + 1) (v :: vs) =
      (decodeNodeF f v).bind fun b =>
      (decodeForestF f vs).map fun bs => b :: bs := by
  rw [decodeForestF.eq_def]

theorem decodeNodeF_succ (f : Nat) (v : JVal) :
    decodeNodeF (f + 1) v =
      ((asObj v).bind fun fs =>
      (takeStrField "id".data fs).bind fun p1 =>
      (takeStrField "title".data p1.2).bind fun p2 =>
      let r1 := optStrField "url".data p2.2
      let r2 := optNumField "dateAdded".data r1.2
      let r3 := optNumField "dateGroupModified".data r2.2
      let r4 := optArrField "children".data r3.2
      match r4.1 with
      | some l =>
        (decodeForestF f l).bind fun bs =>
        let r5 := optStrField "parentId".data r4.2
        if r5.2.isEmpty then
          some (.mk ⟨p1.1⟩ ⟨p2.1⟩ (r1.1.map fun s => ⟨s⟩) r2.1 r3.1 (some bs)
            (r5.1.map fun s => ⟨s⟩))
        else none
      | none =>
        let r5 := optStrField "parentId".data r4.2
        if r5.2.isEmpty then
          some (.mk ⟨p1.1⟩ ⟨p2.1⟩ (r1.1.map fun s => ⟨s⟩) r2.1 r3.1 none
            (r5.1.map fun s => ⟨s⟩))
        else none) := by
  rw [decodeNodeF.eq_def]

theorem takeStrField_cons (k k2 : List Char) (v : JVal)
    (fs : List (List Char × JVal)) :
    takeStrField k ((k2, v) :: fs) =
      if k2 = k then (asStr v).map (fun s => (s, fs)) else none := rfl

theorem optStrField_cons (k k2 : List Char) (v : JVal)
    (fs : List (List Char × JVal)) :
    optStrField k ((k2, v) :: fs) =
      if k2 = k then
        match asStr v with
        | some s => (some s, fs)
        | none => (none, (k2, v) :: fs)
      else (none, (k2, v) :: fs) := rfl

theorem optNumField_cons (k k2 : List Char) (v : JVal)
    (fs : List (List Char × JVal)) :
    optNumField k ((k2, v) :: fs) =
      if k2 = k then
        match asNum v with
        | some n => (some n, fs)
        | none => (none, (k2, v) :: fs)
      else (none, (k2, v) :: fs) := rfl

theorem optArrField_cons (k k2 : List Char) (v : JVal)
    (fs : List (List Char × JVal)) :
    optArrField k ((k2, v) :: fs) =
      if k2 = k then
        match asArr v with
        | some l => (some l, fs)
        | none => (none, (k2, v) :: fs)
      else (none, (k2, v) :: fs) := rfl

theorem optStrField_nil2 (k : List Char) : optStrField k [] = (none, []) := rfl

theorem optNumField_nil2 (k : List Char) : optNumField k [] = (none, []) := rfl

theorem optArrField_nil2 (k : List Char) : optArrField k [] = (none, []) := rfl

theorem decodeNodeF_leaf (f : Nat) (i t : String) (u : Option String)
    (da dgm : Option Nat) (pid : Option String) :
    decodeNodeF (f + 1) (encodeNode (.mk i t u da dgm none pid)) =
      some (.mk i t u da dgm none pid) := by
  rw [encodeNode_eq, decodeNodeF_succ]
  cases u <;> cases da <;> cases dgm <;> cases pid <;> rfl

theorem decodeNodeF_children (f : Nat) (i t : String) (u : Option String)
    (da dgm : Option Nat) (l : List BookmarkNode) (pid : Option String) :
    decodeNodeF (f + 1) (encodeNode (.mk i t u da dgm (some l) pid)) =
      (decodeForestF f (encodeForest l)).bind fun bs =>
        some (.mk i t u da dgm (some bs) pid) := by
  rw [encodeNode_eq, decodeNodeF_succ]
  cases u <;> cases da <;> cases dgm <;> cases pid <;> rfl

/-- Decoding inverts encoding: the JSON object of a bookmark node decodes to
the very node, and likewise for forests. -/
theorem decode_encode :
    (∀ n, ∀ fuel, 2 * sizeNode n ≤ fuel → decodeNodeF fuel (encodeNode n) = some n) ∧
    (∀ l, ∀ fuel, 2 * sizeList l < fuel → decodeForestF fuel (encodeForest l) = some l) := by
  apply bookmarkTree_ind
    (fun n => ∀ fuel, 2 * sizeNode n ≤ fuel → decodeNodeF fuel (encodeNode n) = some n)
    (fun l => ∀ fuel, 2 * sizeList l < fuel → decodeForestF fuel (encodeForest l) = some l)
  · intro fuel hf
    cases fuel with
    | zero => omega
    | succ f => rw [encodeForest_nil, decodeForestF_nil2]
  · intro n ns hn hns fuel hf
    rw [sizeList_cons] at hf
    have h1 := sizeNode_pos n
    cases fuel with
    | zero => omega
    | succ f =>
      rw [encodeForest_cons, decodeForestF_cons2, hn f (by omega), hns f (by omega)]
      rfl
  · intro i t u da dgm ch pid hch fuel hf
    have hpos := sizeNode_pos (.mk i t u da dgm ch pid)
    cases fuel with
    | zero => omega
    | succ f =>
      rw [sizeNode_eq] at hf
      cases ch with
      | none => exact decodeNodeF_leaf f i t u da dgm pid
      | some l =>
        have hf2 : 2 * sizeList l < f := by
          have hf3 : 2 * (1 + sizeList l) ≤ f + 1 := by simpa using hf
          omega
        rw [decodeNodeF_children, hch l rfl f hf2]
        rfl

/-- C9: JSON round-trip. For every backup envelope, `JSON.parse` applied to
the string `exportAsJSON` produces recovers exactly the JSON value of the
envelope (`encodeData`), and reading that value back (`decodeData`) recovers
the envelope itself — same bookmark structure, and for every node the same
`url`, `title`, `dateAdded` and `dateGroupModified`. -/
theorem claim_c9_json_round_trip (d : BackupData) (fuel : Nat)
    (h1 : jsizeV (encodeData d) < fuel) (h2 : 2 * sizeList d.bookmarks < fuel) :
    parseJson fuel (exportAsJSON d) = some (encodeData d) ∧
    decodeData fuel (encodeData d) = some d := by
  constructor
  · have hv := parsesBack_all (encodeData d) 0 fuel [] h1 (by rfl)
    rw [List.append_nil] at hv
    show (match parseVal fuel (renderV 0 (encodeData d)) with
          | some (v, r) => if skipWs r = [] then some v else none
          | none => none) = some (encodeData d)
    rw [hv]
    simp [skipWs]
  · have hstep : decodeData fuel (encodeData d) =
        (decodeForestF fuel (encodeForest d.bookmarks)).map
          (fun l => ⟨d.version, d.exportDate, d.browserInfo, d.totalBookmarks, l⟩) := rfl
    rw [hstep, decode_encode.2 d.bookmarks fuel h2]
    rfl

/-- A small envelope exercising escapes, both date fields, nesting and an
absent-optional mix. -/
def jsonSample : BackupData :=
  createBackupData "Chrome UA" "2024-06-01T00:00:00.000Z"
    [.mk "1" "A \"B\" & <C>" (some "http://x?a=1&b=2") (some 5000) none none none,
     .mk "2" "F" none none (some 7000)
       (some [.mk "3" "" (some "u") none none none (some "2")]) none]

theorem claim_c9_witness :
    parseJson 99 (exportAsJSON jsonSample) = some (encodeData jsonSample) ∧
    decodeData 99 (encodeData jsonSample) = some jsonSample :=
  claim_c9_json_round_trip jsonSample 99 (by decide) (by decide)

/-! ## Claims C7 and C8: `performBackup` orchestration -/

/-- File extension chosen by `generateFilename`. -/
def formatExt : BackupFormat → String
  | .json => "json"
  | .html => "html"

/-- `generateFilename` from `src/lib/bookmarks` (the date and time strings of
the ambient clock are passed explicitly). -/
def generateFilename (dateStr timeStr : String) (format : BackupFormat) : String :=
  "bookmarks-backup-" ++ dateStr ++ "-" ++ timeStr ++ "." ++ formatExt format

/-- JS `String.prototype.trim`: drop whitespace from both ends. -/
def trimChars (s : List Char) : List Char :=
  ((s.dropWhile isWs).reverse.dropWhile isWs).reverse

/-- `settings.downloadFolder?.trim() || "BookmarkBackups"` — the JS `||`
falls through exactly when the trimmed folder is the empty string. -/
def folderOrDefault (s : String) : String :=
  if trimChars s.data = [] then "BookmarkBackups" else ⟨trimChars s.data⟩

/-- Completed externally visible side effects of one `performBackup` run. -/
inductive Effect where
  | wroteCustomDir : String → Effect
  | requestedDownload : String → Effect
  | storedInHistory : BackupHistoryItem → Effect
  | clearedAlarm : Effect
  | createdAlarm : Int → Effect
deriving DecidableEq, Repr

/-- The structured result `performBackup` resolves with:
`{success: true, historyItem}` or `{success: false, error}`. -/
inductive RunResult where
  | ok : BackupHistoryItem → RunResult
  | err : RunResult
deriving DecidableEq, Repr

/-- The ambient world one `performBackup` run sees: stored settings, the
bookmark tree, the clock, and an oracle for each awaited browser API that can
reject (`getDirectoryHandle`, the File System Access write, the
`chrome.downloads` callback, and the two `chrome.alarms` calls).
`getSettings`, `getAllBookmarks`, `addBackupToHistory` and `saveSettings`
resolve unconditionally in the source, so they carry no failure oracle. -/
structure Env where
  settings : BackupSettings
  bookmarks : List BookmarkNode
  userAgent : String
  exportDate : String
  dateStr : String
  timeStr : String
  nowMs : Nat
  nowDT : DateTime
  history : List BackupHistoryItem
  dirHandle : Option (Option Unit)
  permission : Bool
  writeOk : Bool
  downloadOk : Bool
  alarmClearOk : Bool
  alarmCreateOk : Bool

/-- The `savedToCustomDir` flag after the guarded custom-directory attempt:
true only when a handle exists, permission is granted and the write went
through; a rejection of `getDirectoryHandle` or of the write is caught by the
inner `try`/`catch` and leaves the flag false. -/
def customSaved (env : Env) : Bool :=
  env.settings.useCustomDirectory &&
  (match env.dirHandle with
   | some (some _) => env.permission && env.writeOk
   | _ => false)

/-- `performBackup` from `src/background/index`: build the export, store or
download it, append to history, then recompute and reschedule the next backup.
`none` models the run never completing (the monthly clamping loop of
`calculateNextBackupTime` can diverge); `some` carries the structured result
and the completed side effects. -/
def performBackup (loopFuel : Nat) (env : Env) : Option (RunResult × List Effect) :=
  let settings := env.settings
  let backupData := createBackupData env.userAgent env.exportDate env.bookmarks
  let filename := generateFilename env.dateStr env.timeStr settings.format
  let content :=
    match settings.format with
    | .json => exportAsJSON backupData
    | .html => exportAsHTML backupData
  let baseItem : BackupHistoryItem :=
    ⟨⟨natDigits env.nowMs⟩, env.nowMs, filename, backupData.totalBookmarks,
      settings.format, content.utf8ByteSize, none⟩
  let stored : Option (BackupHistoryItem × List Effect) :=
    match settings.storageMode with
    | .extension => some ({ baseItem with data := some content }, [])
    | .download =>
      if settings.autoDownload then
        if customSaved env then some (baseItem, [.wroteCustomDir filename])
        else
          if env.downloadOk then
            some (baseItem,
              [.requestedDownload
                (folderOrDefault settings.downloadFolder ++ "/" ++ filename)])
          else none
      else some (baseItem, [])
  match stored with
  | none => some (.err, [])
  | some (item, effs) =>
    let effs2 := effs ++ [.storedInHistory item]
    match calculateNextBackupTime loopFuel settings env.nowDT with
    | none => none
    | some _ =>
      if env.alarmClearOk then
        if settings.enabled then
          match calculateNextBackupTime loopFuel settings env.nowDT with
          | none => none
          | some next2 =>
            if env.alarmCreateOk then
              some (.ok item, effs2 ++ [.clearedAlarm, .createdAlarm next2])
            else some (.err, effs2 ++ [.clearedAlarm])
        else some (.ok item, effs2 ++ [.clearedAlarm])
      else some (.err, effs2)

/-- Whether some fallible step of the run fails: the storage step (only the
fallback download can fail; extension storage and a successful custom write
cannot), or clearing the alarm, or — when backups are enabled — creating it. -/
def stepFailed (env : Env) : Bool :=
  (match env.settings.storageMode with
   | .download => env.settings.autoDownload && !customSaved env && !env.downloadOk
   | .extension => false) ||
  !env.alarmClearOk ||
  (env.settings.enabled && !env.alarmCreateOk)

/-- C8 (amended): whenever `performBackup` completes, it resolves with a
structured result — `{success: false}` exactly when some internal step
failed, and `{success: true, historyItem}` with the item appended to history
when none did; no failure is silently swallowed. (The original claim promised
a structured result for *every* execution; the run never completes at all
when `calculateNextBackupTime` diverges, see the counterexample.) -/
theorem claim_c8_structured_result (fuel : Nat) (env : Env) (r : RunResult)
    (effs : List Effect) (h : performBackup fuel env = some (r, effs)) :
    (r = RunResult.err ↔ stepFailed env = true) ∧
    (stepFailed env = false →
      ∃ item, r = RunResult.ok item ∧ Effect.storedInHistory item ∈ effs) := by
  cases hsm : env.settings.storageMode <;>
  cases hauto : env.settings.autoDownload <;>
  cases hcs : customSaved env <;>
  cases hdl : env.downloadOk <;>
  cases hcalc : calculateNextBackupTime fuel env.settings env.nowDT <;>
  cases hclear : env.alarmClearOk <;>
  cases hen : env.settings.enabled <;>
  cases hcreate : env.alarmCreateOk <;>
    simp [performBackup, hsm, hauto, hcs, hdl, hcalc, hclear, hen, hcreate] at h <;>
    obtain ⟨hr, he⟩ := h <;>
    subst hr <;> subst he <;>
    simp [stepFailed, hsm, hauto, hcs, hdl, hclear, hen, hcreate, List.mem_append]

/-- An environment whose settings ask for monthly backups on day 31, seen on
2025-06-15 09:00. All browser APIs behave; only the scheduling arithmetic is
poisoned. -/
def hangEnv : Env :=
  ⟨monthlyAt31, [], "UA", "2025-06-15T09:00:00.000Z", "2025-06-15", "09-00-00",
   1749978000000, ⟨2025, 5, 15, 9, 0, 0, 0⟩, [], none, false, false, true, true, true⟩

/-- On `hangEnv` the rescheduling step loops forever (June has 30 days and
`backupDay = 31`), so `performBackup` never completes at any fuel. -/
theorem performBackup_hangEnv_none : ∀ fuel, performBackup fuel hangEnv = none := by
  intro fuel
  have hcalc : calculateNextBackupTime fuel monthlyAt31 ⟨2025, 5, 15, 9, 0, 0, 0⟩ = none := by
    rw [calc_eq_monthly fuel monthlyAt31 ⟨2025, 5, 15, 9, 0, 0, 0⟩ 9 0 (by decide) rfl]
    show (monthLoop fuel 31 ⟨2025, 6, 1, 9, 0, 0, 0⟩).map toTs = none
    rw [monthLoop_none 31 ⟨2025, 6, 1, 9, 0, 0, 0⟩ (by decide) (by decide) fuel]
    rfl
  have hsm : monthlyAt31.storageMode = StorageMode.extension := rfl
  simp [performBackup, hangEnv, hsm, hcalc]

/-- C8 counterexample: the original claim promises a structured result for
every execution, but on `hangEnv` (monthly backups on day 31, seen in June)
the run has not completed after a billion scheduling-loop iterations — the
loop body is a fixpoint, so it never returns and never throws. -/
theorem claim_c8_counterexample : performBackup 1000000000 hangEnv = none :=
  performBackup_hangEnv_none 1000000000

/-- A fully healthy extension-storage environment with terminating
scheduling. -/
def calmEnv : Env :=
  ⟨dailyAtNine, [], "UA", "2024-01-01T10:00:00.000Z", "2024-01-01", "10-00-00",
   1704103200000, ⟨2024, 0, 1, 10, 0, 0, 0⟩, [], none, false, false, true, true, true⟩

theorem claim_c8_witness :
    ∃ r effs, performBackup 5 calmEnv = some (r, effs) ∧
      (r = RunResult.err ↔ stepFailed calmEnv = true) := by
  have hs : (performBackup 5 calmEnv).isSome = true := by decide
  obtain ⟨⟨r, effs⟩, hx⟩ := Option.isSome_iff_exists.mp hs
  exact ⟨r, effs, hx, (claim_c8_structured_result 5 calmEnv r effs hx).1⟩

/-- C7: with download storage, auto-download on and a custom directory
configured, any failure of the custom-directory path (missing handle, denied
permission, or write error — all summarized by `customSaved env = false`)
does not abort the run: the backup falls back to a generic download into
`downloadFolder` (defaulting to `BookmarkBackups` when the trimmed folder is
empty) and still reports success when that fallback succeeds; only a failure
of the fallback download itself fails the run. -/
theorem claim_c7_download_fallback (fuel : Nat) (env : Env)
    (hm : env.settings.storageMode = .download)
    (ha : env.settings.autoDownload = true)
    (hu : env.settings.useCustomDirectory = true)
    (hfail : customSaved env = false)
    (hcalc : (calculateNextBackupTime fuel env.settings env.nowDT).isSome = true)
    (hclear : env.alarmClearOk = true)
    (hcreate : env.alarmCreateOk = true) :
    (env.downloadOk = true →
      ∃ item effs, performBackup fuel env = some (RunResult.ok item, effs) ∧
        Effect.requestedDownload
          (folderOrDefault env.settings.downloadFolder ++ "/" ++
            generateFilename env.dateStr env.timeStr env.settings.format) ∈ effs) ∧
    (env.downloadOk = false → performBackup fuel env = some (RunResult.err, [])) ∧
    folderOrDefault "" = "BookmarkBackups" ∧
    folderOrDefault "   " = "BookmarkBackups" := by
  obtain ⟨t, hc2⟩ := Option.isSome_iff_exists.mp hcalc
  refine ⟨?_, ?_, by decide, by decide⟩
  · intro hdl
    cases hen : env.settings.enabled <;>
      simp only [performBackup, hm, ha, hfail, hdl, hc2, hclear, hcreate, hen,
        Bool.false_eq_true, if_false, if_true, ite_true, ite_false] <;>
      exact ⟨_, _, rfl, by simp⟩
  · intro hdl
    simp [performBackup, hm, ha, hfail, hdl]

/-- Download-mode settings with a custom directory configured and a
whitespace-only download folder. -/
def dlSettings : BackupSettings :=
  ⟨true, .daily, none, "09:00", none, .json, true, .download, "   ", true,
   some "Docs", 5, none, none⟩

/-- A run where the custom directory handle exists but permission is denied,
and the fallback download works. -/
def c7Env : Env :=
  ⟨dlSettings, [], "UA", "2024-01-01T10:00:00.000Z", "2024-01-01", "10-00-00",
   1704103200000, ⟨2024, 0, 1, 10, 0, 0, 0⟩, [], some (some ()), false, false,
   true, true, true⟩

theorem claim_c7_witness :
    ∃ item effs, performBackup 5 c7Env = some (RunResult.ok item, effs) ∧
      Effect.requestedDownload
        (folderOrDefault c7Env.settings.downloadFolder ++ "/" ++
          generateFilename c7Env.dateStr c7Env.timeStr c7Env.settings.format) ∈ effs :=
  (claim_c7_download_fallback 5 c7Env rfl rfl rfl (by decide) (by decide)
    rfl rfl).1 rfl
